import Mathlib

/-
Verification of the agent-orchestration scripts of this repository.

The development shallowly embeds the relevant JavaScript sources:
  - manager-agent.js       : the ManagerAgent class (agent registry, workflow
                             table, sequential / parallel / adaptive execution,
                             dependency checking, auto-remediation, report
                             filenames, event listeners);
  - agent-orchestrator.js  : the AgentOrchestrator class (parallel agent
                             launcher and result recording) and its CLI;
  - enhanced-ui-testing-agent.js : the overall-score computation over the
                             nested test-result objects.

Agent payload values are abstracted as natural numbers; an agent execution
either returns a value or throws an error message, which callers record as
an object with an error field.  Machine-level JavaScript details that the
claims do not touch (timestamps as clock reads, the browser, the file
system) appear only as explicit parameters.
-/

/-- Outcome of a promise as seen by Promise.allSettled: status fulfilled
with a value, or status rejected with the reason's message. -/
inductive SettledResult where
  | fulfilled (v : Nat)
  | rejected (msg : String)
deriving DecidableEq

/-- Result of executing one agent, as recorded in a results object: either
the agent's returned value, or an object with an error field holding the
thrown error's message. -/
inductive AgentResult where
  | success (v : Nat)
  | errorField (msg : String)
deriving DecidableEq

/- ------------------------------------------------------------------ -/
/- Manager agent registry and workflow table (manager-agent.js 39-138) -/
/- ------------------------------------------------------------------ -/

/-- One entry of the ManagerAgent agent registry (manager-agent.js lines
39-96); the fields used by the embedded operations plus the counters the
event listeners mutate.  The successRate is an integer because the failed
listener computes with Math.max over a subtraction. -/
structure AgentSpec where
  dependencies : List String
  resourceUsage : String
  priority : Nat
  estimatedDuration : Nat
  status : String
  successRate : Int
  runCount : Nat
deriving DecidableEq

/-- The built-in four-agent registry of ManagerAgent (manager-agent.js
lines 39-96): developer, tester and ui with no dependencies, orchestrator
depending on the other three. -/
def managerAgents : List (String × AgentSpec) :=
  [("developer",
    { dependencies := [], resourceUsage := "low", priority := 1,
      estimatedDuration := 30, status := "idle", successRate := 100, runCount := 0 }),
   ("tester",
    { dependencies := [], resourceUsage := "high", priority := 2,
      estimatedDuration := 120, status := "idle", successRate := 100, runCount := 0 }),
   ("ui",
    { dependencies := [], resourceUsage := "medium", priority := 2,
      estimatedDuration := 60, status := "idle", successRate := 100, runCount := 0 }),
   ("orchestrator",
    { dependencies := ["developer", "tester", "ui"], resourceUsage := "low", priority := 3,
      estimatedDuration := 10, status := "idle", successRate := 100, runCount := 0 })]

/-- The names of the agents in the built-in registry. -/
def managerAgentNames : List String := ["developer", "tester", "ui", "orchestrator"]

/-- Dependency list of an agent of the built-in registry (an unknown agent
name yields no dependencies, as an undefined registry entry contributes
none in checkDependencies). -/
def managerDeps (a : String) : List String :=
  match managerAgents.lookup a with
  | some s => s.dependencies
  | none => []

/-- Resource usage string of an agent of the built-in registry. -/
def managerResourceUsage (a : String) : String :=
  match managerAgents.lookup a with
  | some s => s.resourceUsage
  | none => ""

/-- One entry of the ManagerAgent workflow table (manager-agent.js lines
99-138): display name, agent list, execution mode and estimated duration. -/
structure WorkflowSpec where
  displayName : String
  agents : List String
  mode : String
  estimatedDuration : Nat
deriving DecidableEq

/-- The built-in workflow table of ManagerAgent (manager-agent.js lines
99-138), keyed by workflow id. -/
def managerWorkflows : List (String × WorkflowSpec) :=
  [("quick-check",
    { displayName := "Quick Health Check", agents := ["developer", "ui"],
      mode := "parallel", estimatedDuration := 90 }),
   ("comprehensive",
    { displayName := "Comprehensive Analysis",
      agents := ["developer", "tester", "ui", "orchestrator"],
      mode := "adaptive", estimatedDuration := 300 }),
   ("performance-focused",
    { displayName := "Performance Analysis", agents := ["developer", "tester"],
      mode := "sequential", estimatedDuration := 150 }),
   ("security-audit",
    { displayName := "Security Audit", agents := ["developer", "tester"],
      mode := "parallel", estimatedDuration := 120 })]

/- ------------------------------------------------------------- -/
/- Sequential and parallel workflow execution (manager-agent.js)  -/
/- ------------------------------------------------------------- -/

/-- ManagerAgent.shouldStopOnFailure (manager-agent.js lines 579-583): the
workflow stops after the failure of a critical agent (the developer agent)
unless the workflow's name property equals the string comprehensive.  Note
that the name property holds the display name of the workflow. -/
def shouldStopOnFailure (agentName workflowName : String) : Bool :=
  ["developer"].contains agentName && workflowName != "comprehensive"

/-- ManagerAgent.executeSequential (manager-agent.js lines 401-422): each
agent of the list is executed in turn; a throw is caught and recorded as an
object with an error field, and the loop breaks when shouldStopOnFailure
holds for the failed agent.  The behave argument gives each agent's
execution outcome. -/
def executeSequentialRun (workflowName : String) (behave : String → AgentResult) :
    List String → List (String × AgentResult)
  | [] => []
  | a :: rest =>
    match behave a with
    | AgentResult.success v =>
        (a, AgentResult.success v) :: executeSequentialRun workflowName behave rest
    | AgentResult.errorField m =>
        (a, AgentResult.errorField m) ::
          (if shouldStopOnFailure a workflowName then []
           else executeSequentialRun workflowName behave rest)

/-- An agent execution outcome as a settled promise (fulfilled on return,
rejected with the error message on throw). -/
def settleAgent (behave : String → AgentResult) (a : String) : SettledResult :=
  match behave a with
  | AgentResult.success v => SettledResult.fulfilled v
  | AgentResult.errorField m => SettledResult.rejected m

/-- ManagerAgent.processResults (manager-agent.js lines 564-577): pairs the
agent names with the allSettled outcomes by index; a fulfilled outcome is
recorded as its value and a rejected one as an object with an error field. -/
def processResults (agentNames : List String) (settled : List SettledResult) :
    List (String × AgentResult) :=
  (agentNames.zip settled).map (fun p =>
    match p.2 with
    | SettledResult.fulfilled v => (p.1, AgentResult.success v)
    | SettledResult.rejected m => (p.1, AgentResult.errorField m))

/-- ManagerAgent.executeParallel (manager-agent.js lines 390-399): all the
workflow's agents are started, their promises are awaited with
Promise.allSettled, and processResults records the outcomes. -/
def executeParallelRun (agents : List String) (behave : String → AgentResult) :
    List (String × AgentResult) :=
  processResults agents (agents.map (settleAgent behave))

/- ------------------------------------------------------ -/
/- Adaptive workflow execution (manager-agent.js 424-502)  -/
/- ------------------------------------------------------ -/

/-- The agents of a ready batch that ManagerAgent.categorizeAgentsForExecution
(manager-agent.js lines 483-502) sends to the parallel branch: the agents
whose resource usage is not high, provided the running-agent count is below
maxConcurrentAgents (the canPar flag abstracts that comparison, which holds
at categorization time whenever fewer agents than the configured maximum
are marked running). -/
def categorizeParallel (ru : String → String) (canPar : Bool) (ready : List String) :
    List String :=
  if canPar then ready.filter (fun a => ru a != "high") else []

/-- The agents of a ready batch that categorizeAgentsForExecution sends to
the sequential branch: the high-resource agents, or every ready agent when
the running-agent count has reached maxConcurrentAgents. -/
def categorizeSequentialAgents (ru : String → String) (canPar : Bool) (ready : List String) :
    List String :=
  if canPar then ready.filter (fun a => ru a == "high") else ready

/-- The ready set of one executeAdaptive loop iteration (manager-agent.js
lines 434-437): the remaining agents whose dependencies are all completed. -/
def readyAgents (deps : String → List String) (remaining completed : List String) :
    List String :=
  remaining.filter (fun a => (deps a).all (fun d => completed.contains d))

/-- One recorded entry of the adaptive results object: the agent's name with
its outcome (a throw is recorded as an object with an error field, both in
the allSettled branch and in the sequential catch). -/
def recordAgent (behave : String → AgentResult) (a : String) : String × AgentResult :=
  (a, behave a)

/-- A list strictly shrinks under a filter when some member fails the
filter predicate. -/
theorem length_filter_lt_of_mem_not {α : Type _} {l : List α} {p : α → Bool} {x : α}
    (hx : x ∈ l) (hpx : p x = false) : (l.filter p).length < l.length := by
  induction l with
  | nil => simp at hx
  | cons a t ih =>
      by_cases hpa : p a = true
      · have hxt : x ∈ t := by
          rcases List.mem_cons.mp hx with h | h
          · subst h; rw [hpa] at hpx; simp at hpx
          · exact h
        simpa [List.filter_cons, hpa] using Nat.succ_lt_succ (ih hxt)
      · have hpa2 : p a = false := by
          cases h : p a
          · rfl
          · exact absurd h hpa
        calc (List.filter p (a :: t)).length
            = (List.filter p t).length := by simp [List.filter_cons, hpa2]
          _ ≤ t.length := List.length_filter_le p t
          _ < (a :: t).length := by simp

/-- The loop of ManagerAgent.executeAdaptive (manager-agent.js lines
424-481): while agents remain, the ready ones (dependencies completed) are
split by categorizeAgentsForExecution into a parallel batch (run through
Promise.allSettled) and a sequential rest, every executed agent is recorded
and marked completed whether it succeeded or failed, and if no agent is
ready the deadlock error is thrown.  The round counter k feeds the canPar
abstraction of the running-agent comparison. -/
def executeAdaptiveGo (deps : String → List String) (ru : String → String)
    (canPar : Nat → Bool) (behave : String → AgentResult) :
    Nat → List String → List String → List (String × AgentResult) →
    Except String (List (String × AgentResult))
  | k, remaining, completed, results =>
    if hrem : remaining = [] then Except.ok results
    else
      if hready : readyAgents deps remaining completed = [] then
        Except.error "Deadlock detected: No agents can proceed"
      else
        executeAdaptiveGo deps ru canPar behave (k + 1)
          (remaining.filter (fun a => !((readyAgents deps remaining completed).contains a)))
          (completed ++
            (categorizeParallel ru (canPar k) (readyAgents deps remaining completed) ++
             categorizeSequentialAgents ru (canPar k) (readyAgents deps remaining completed)))
          (results ++
            (categorizeParallel ru (canPar k) (readyAgents deps remaining completed) ++
             categorizeSequentialAgents ru (canPar k) (readyAgents deps remaining completed)).map
              (recordAgent behave))
termination_by k remaining _ _ => remaining.length
decreasing_by
  cases hr : readyAgents deps remaining completed with
  | nil => exact absurd hr hready
  | cons y ys =>
      have hy : y ∈ readyAgents deps remaining completed := by
        rw [hr]; exact List.mem_cons_self y ys
      have hyrem : y ∈ remaining := List.mem_of_mem_filter hy
      have hcon : (readyAgents deps remaining completed).contains y = true := by
        simpa [List.elem_iff] using hy
      exact length_filter_lt_of_mem_not hyrem (by simp [hcon])

/-- ManagerAgent.executeAdaptive (manager-agent.js lines 424-481), starting
from the workflow's agent list with nothing completed and an empty results
object. -/
def executeAdaptive (deps : String → List String) (ru : String → String)
    (canPar : Nat → Bool) (behave : String → AgentResult) (agents : List String) :
    Except String (List (String × AgentResult)) :=
  executeAdaptiveGo deps ru canPar behave 0 agents [] []

/- ------------------------------------------------------------------- -/
/- AgentOrchestrator parallel execution (agent-orchestrator.js 72-102)  -/
/- ------------------------------------------------------------------- -/

/-- The configuration flags of AgentOrchestrator that runAgentsInParallel
reads (agent-orchestrator.js lines 16-24). -/
structure OrchestratorRunConfig where
  runDeveloperAgent : Bool
  runTesterAgent : Bool
  runUITestingAgent : Bool
  runInParallel : Bool
deriving DecidableEq

/-- The fixed name list that AgentOrchestrator.runAgentsInParallel indexes
its settled results into (agent-orchestrator.js line 94). -/
def fixedParallelNames : List String := ["developer", "tester", "ui"]

/-- The agents whose promises runAgentsInParallel pushes, in push order:
developer if enabled, then tester if enabled, then ui if enabled
(agent-orchestrator.js lines 75-87). -/
def orchestratorStartedAgents (c : OrchestratorRunConfig) : List String :=
  (if c.runDeveloperAgent then ["developer"] else []) ++
  (if c.runTesterAgent then ["tester"] else []) ++
  (if c.runUITestingAgent then ["ui"] else [])

/-- The key fragment agent-orchestrator.js line 95 builds from an agent
name: charAt(0).toUpperCase() + slice(1), i.e. the first character
upper-cased and the rest unchanged. -/
def jsCapitalize (s : String) : String :=
  match s.data with
  | [] => ""
  | ch :: rest => String.mk (Char.toUpper ch :: rest)

/-- Property access on the orchestrator's config object by key string: the
constructor (agent-orchestrator.js lines 16-24) defines the properties
runDeveloperAgent, runTesterAgent, runUITestingAgent and runInParallel
among the run flags; any other key reads undefined, which is falsy. -/
def orchestratorConfigLookup (c : OrchestratorRunConfig) (key : String) : Bool :=
  if key == "runDeveloperAgent" then c.runDeveloperAgent
  else if key == "runTesterAgent" then c.runTesterAgent
  else if key == "runUITestingAgent" then c.runUITestingAgent
  else if key == "runInParallel" then c.runInParallel
  else false

/-- The dynamic guard of agent-orchestrator.js line 95:
config[run + Capitalized(name) + Agent].  For the name ui this builds the
key runUiAgent, which is not a property of the config (the ui flag is
named runUITestingAgent), so the guard reads undefined and is false for
every config. -/
def orchestratorEnabled (c : OrchestratorRunConfig) (name : String) : Bool :=
  orchestratorConfigLookup c ("run" ++ jsCapitalize name ++ "Agent")

/-- AgentOrchestrator.runAgentsInParallel (agent-orchestrator.js lines
72-102): the enabled agents' promises are awaited with Promise.allSettled,
and each settled outcome at position i is recorded, when fulfilled, under
the i-th name of the fixed list developer, tester, ui, provided the line-95
dynamic key guard for that name passes; rejected outcomes are only
logged. -/
def runAgentsInParallel (c : OrchestratorRunConfig) (behave : String → SettledResult) :
    List (String × Nat) :=
  ((orchestratorStartedAgents c).map behave).enum.filterMap (fun p =>
    match p.2, fixedParallelNames.get? p.1 with
    | SettledResult.fulfilled v, some name =>
        if orchestratorEnabled c name then some (name, v) else none
    | _, _ => none)

/- -------------------------------------------------- -/
/- JavaScript string methods over character lists      -/
/- -------------------------------------------------- -/

/-- Whether one character list is a prefix of another. -/
def charsPrefixOf : List Char → List Char → Bool
  | [], _ => true
  | _ :: _, [] => false
  | a :: as, b :: bs => a == b && charsPrefixOf as bs

/-- JavaScript String.startsWith. -/
def jsStartsWith (s pat : String) : Bool := charsPrefixOf pat.data s.data

/-- The worker of jsSplit, structurally recursive on a fuel bounded by the
length of the text; the fuel never runs out because each step either ends
or consumes at least one character of a nonempty separator occurrence. -/
def jsSplitGo (sep : List Char) : Nat → List Char → List Char → List String
  | _, [], acc => [String.mk acc]
  | 0, s, acc => [String.mk (acc ++ s)]
  | fuel + 1, c :: rest, acc =>
    if charsPrefixOf sep (c :: rest) then
      String.mk acc :: jsSplitGo sep fuel (List.drop sep.length (c :: rest)) []
    else jsSplitGo sep fuel rest (acc ++ [c])

/-- JavaScript String.split with a nonempty string separator: the pieces of
the text between the non-overlapping left-to-right occurrences of the
separator. -/
def jsSplit (s sep : String) : List String := jsSplitGo sep.data s.data.length s.data []

/-- The whitespace characters JavaScript String.trim strips in these
scripts' inputs. -/
def isWhitespaceChar (c : Char) : Bool :=
  c == ' ' || c == '\t' || c == '\n' || c == '\r'

/-- Strips leading whitespace characters from a character list. -/
def trimLeftChars : List Char → List Char
  | [] => []
  | c :: rest => if isWhitespaceChar c then trimLeftChars rest else c :: rest

/-- JavaScript String.trim: strips whitespace from both ends. -/
def jsTrim (s : String) : String :=
  String.mk (trimLeftChars (trimLeftChars s.data.reverse).reverse)

/- --------------------------------------------------- -/
/- CLI argument parsing (agent-orchestrator.js 740-803, -/
/- manager-agent.js 1227-1250)                          -/
/- --------------------------------------------------- -/

/-- The value of a flag of the form name=value: the JavaScript scripts take
arg.split at the equals sign and index 1 (undefined, modeled as the empty
string, when there is no second part). -/
def cliArgValue (arg : String) : String := (jsSplit arg "=").getD 1 ""

/-- The options object of the AgentOrchestrator CLI (agent-orchestrator.js
lines 743-748). -/
structure OrchestratorOptions where
  config : String
  agents : String
  parallel : Bool
  help : Bool
deriving DecidableEq

/-- One step of the argument loop of the AgentOrchestrator CLI
(agent-orchestrator.js lines 750-760). -/
def orchestratorArgStep (o : OrchestratorOptions) (arg : String) : OrchestratorOptions :=
  if jsStartsWith arg "--config=" then { o with config := cliArgValue arg }
  else if jsStartsWith arg "--agents=" then { o with agents := cliArgValue arg }
  else if arg == "--parallel" then { o with parallel := true }
  else if arg == "--help" || arg == "-h" then { o with help := true }
  else o

/-- The argument loop of the AgentOrchestrator CLI (agent-orchestrator.js
lines 750-760), folding over the argument vector. -/
def parseOrchestratorArgs (args : List String) : OrchestratorOptions :=
  args.foldl orchestratorArgStep
    { config := "orchestrator-config.json", agents := "all", parallel := false, help := false }

/-- The relevant keys an orchestrator-config.json file may carry; a key that
the file does not define is none and leaves the corresponding default. -/
structure OrchestratorFileConfig where
  runDeveloperAgent : Option Bool
  runTesterAgent : Option Bool
  runUITestingAgent : Option Bool
  runInParallel : Option Bool
deriving DecidableEq

/-- The config object after the file merge (agent-orchestrator.js lines
767-783): the base object sets the three run flags true and runInParallel
from the parallel flag, and a loaded config file's keys override it by
spread. -/
def orchestratorMergedConfig (args : List String) (file : Option OrchestratorFileConfig) :
    OrchestratorRunConfig :=
  match file with
  | none =>
    { runDeveloperAgent := true, runTesterAgent := true, runUITestingAgent := true,
      runInParallel := (parseOrchestratorArgs args).parallel }
  | some f =>
    { runDeveloperAgent := f.runDeveloperAgent.getD true,
      runTesterAgent := f.runTesterAgent.getD true,
      runUITestingAgent := f.runUITestingAgent.getD true,
      runInParallel := f.runInParallel.getD (parseOrchestratorArgs args).parallel }

/-- The agents selection applied after the file merge (agent-orchestrator.js
lines 786-791): an agents option other than all overwrites the three run
flags from the comma-separated, trimmed selection list. -/
def orchestratorAgentsOverride (agentsOpt : String) (merged : OrchestratorRunConfig) :
    OrchestratorRunConfig :=
  if agentsOpt != "all" then
    { merged with
      runDeveloperAgent :=
        ((jsSplit agentsOpt ",").map jsTrim).contains "dev" ||
        ((jsSplit agentsOpt ",").map jsTrim).contains "developer",
      runTesterAgent :=
        ((jsSplit agentsOpt ",").map jsTrim).contains "test" ||
        ((jsSplit agentsOpt ",").map jsTrim).contains "tester",
      runUITestingAgent := ((jsSplit agentsOpt ",").map jsTrim).contains "ui" }
  else merged

/-- The configuration the AgentOrchestrator CLI builds (agent-orchestrator.js
lines 767-793): the flag-derived base, overridden by the config file's
keys, then by a non-all agents selection. -/
def orchestratorCliConfig (args : List String) (file : Option OrchestratorFileConfig) :
    OrchestratorRunConfig :=
  orchestratorAgentsOverride (parseOrchestratorArgs args).agents
    (orchestratorMergedConfig args file)

/-- The options object of the ManagerAgent CLI (manager-agent.js lines
1230-1236). -/
structure ManagerOptions where
  workflow : String
  config : String
  listFlag : Bool
  statusFlag : Bool
  help : Bool
deriving DecidableEq

/-- One step of the argument loop of the ManagerAgent CLI
(manager-agent.js lines 1238-1250). -/
def managerArgStep (o : ManagerOptions) (arg : String) : ManagerOptions :=
  if jsStartsWith arg "--workflow=" then { o with workflow := cliArgValue arg }
  else if jsStartsWith arg "--config=" then { o with config := cliArgValue arg }
  else if arg == "--list" then { o with listFlag := true }
  else if arg == "--status" then { o with statusFlag := true }
  else if arg == "--help" || arg == "-h" then { o with help := true }
  else o

/-- The argument loop of the ManagerAgent CLI (manager-agent.js lines
1238-1250), folding over the argument vector; the workflow option defaults
to comprehensive. -/
def parseManagerArgs (args : List String) : ManagerOptions :=
  args.foldl managerArgStep
    { workflow := "comprehensive", config := "manager-config.json",
      listFlag := false, statusFlag := false, help := false }

/- -------------------------------------------------- -/
/- Auto-remediation and retry (manager-agent.js)       -/
/- -------------------------------------------------- -/

/-- The configuration fields that getRetryConfig may modify
(manager-agent.js lines 618-631). -/
structure RetryConfig where
  timeout : Nat
  headless : Bool
  generateScreenshots : Bool
  crossBrowserTesting : Bool
deriving DecidableEq

/-- Substring containment as the JavaScript String.includes used on error
messages: a string contains a nonempty pattern exactly when splitting on the
pattern yields more than one part. -/
def stringContains (s pat : String) : Bool := (jsSplit s pat).length != 1

/-- ManagerAgent.getRetryConfig (manager-agent.js lines 618-631): an error
message containing timeout doubles the timeout field of the agent's base
config; memory forces headless and disables screenshots; browser disables
cross-browser testing; anything else returns the base config unchanged. -/
def getRetryConfig (base : RetryConfig) (errorMessage : String) : RetryConfig :=
  if stringContains errorMessage "timeout" then { base with timeout := base.timeout * 2 }
  else if stringContains errorMessage "memory" then
    { base with headless := true, generateScreenshots := false }
  else if stringContains errorMessage "browser" then
    { base with crossBrowserTesting := false }
  else base

/-- The number of times executeAgent is invoked for one agent under
auto-remediation (manager-agent.js lines 180-190 and 585-616), counted up
to the given fuel: invocation k either succeeds (failsAt k false), which
ends the chain (the completed listener increments runCount and nothing
retries), or fails, which fires the agent-failed listener; the listener
calls handleAgentFailure, which re-invokes executeAgent exactly when
runCount is below the retryFailedAgents limit.  Crucially, runCount is
incremented only by the agent-completed listener (manager-agent.js line
175), so a failed invocation leaves runCount unchanged. -/
def remediationInvocations (retryLimit : Nat) (failsAt : Nat → Bool) :
    Nat → Nat → Nat → Nat
  | 0, _, _ => 0
  | fuel + 1, k, runCount =>
    if failsAt k then
      1 + (if runCount < retryLimit then
             remediationInvocations retryLimit failsAt fuel (k + 1) runCount
           else 0)
    else 1

/- -------------------------------------------------- -/
/- Persisted file names (manager-agent.js 699-738,     -/
/- 690-693, 950-978)                                   -/
/- -------------------------------------------------- -/

/-- The date part of an ISO timestamp string: timestamp.split at the letter
T, index 0 (manager-agent.js line 720). -/
def dateOf (isoTimestamp : String) : String := (jsSplit isoTimestamp "T").headD ""

/-- The JSON report path of generateManagerReports (manager-agent.js line
720): the output directory with manager-report-, the run's date and .json. -/
def managerReportFilename (outputDir isoTimestamp : String) : String :=
  outputDir ++ "/manager-report-" ++ dateOf isoTimestamp ++ ".json"

/-- The HTML dashboard path of generateManagerReports (manager-agent.js
line 728). -/
def managerDashboardFilename (outputDir isoTimestamp : String) : String :=
  outputDir ++ "/manager-dashboard-" ++ dateOf isoTimestamp ++ ".html"

/-- The analysis file path of postExecutionAnalysis (manager-agent.js line
691), named with the workflow display name and the millisecond clock. -/
def analysisFilename (outputDir workflowDisplayName : String) (dateNowMs : Nat) : String :=
  outputDir ++ "/workflows/analysis-" ++ workflowDisplayName ++ "-" ++ toString dateNowMs ++ ".json"

/-- The state path that loadState reads (manager-agent.js line 952). -/
def loadStatePath (outputDir : String) : String := outputDir ++ "/manager-state.json"

/-- The state path that saveState writes (manager-agent.js line 975). -/
def saveStatePath (outputDir : String) : String := outputDir ++ "/manager-state.json"

/- ------------------------------------------------------------ -/
/- Overall score of the UI testing agent                         -/
/- (enhanced-ui-testing-agent.js 345-364)                        -/
/- ------------------------------------------------------------ -/

mutual
/-- A value of a testPage tests object: either a leaf boolean test result
or a nested object of named test values (the responsive entry nests one
object per viewport). -/
inductive TestVal where
  | leaf (b : Bool)
  | node (fields : TestFields)
/-- The named fields of a tests object. -/
inductive TestFields where
  | nil
  | cons (name : String) (v : TestVal) (rest : TestFields)
end

mutual
/-- EnhancedUITestingAgent.countAllTests (enhanced-ui-testing-agent.js
lines 354-364) on one value: counts one per boolean value and recurses into
object values, so it counts the leaf boolean tests at every nesting depth. -/
def countAllTests : TestVal → Nat
  | TestVal.leaf _ => 1
  | TestVal.node fs => countAllTestsFields fs
/-- countAllTests over the fields of an object. -/
def countAllTestsFields : TestFields → Nat
  | TestFields.nil => 0
  | TestFields.cons _ v rest => countAllTests v + countAllTestsFields rest
end

/-- Whether every direct value of an object is the boolean true (the every
check inside the calculateOverallScore filter). -/
def allDirectTrue : TestFields → Bool
  | TestFields.nil => true
  | TestFields.cons _ (TestVal.leaf true) rest => allDirectTrue rest
  | TestFields.cons _ _ _ => false

/-- The filter of calculateOverallScore (enhanced-ui-testing-agent.js lines
346-348) applied to one direct value of the tests object: a value passes
when it is the boolean true, or when it is an object every direct value of
which is the boolean true. -/
def passedDirectTest : TestVal → Bool
  | TestVal.leaf b => b
  | TestVal.node fs => allDirectTrue fs

/-- The number of top-level values of the tests object that pass the
calculateOverallScore filter. -/
def passedCountFields : TestFields → Nat
  | TestFields.nil => 0
  | TestFields.cons _ v rest =>
      (if passedDirectTest v then 1 else 0) + passedCountFields rest

/-- Math.round of one hundred times passed over total on the naturals:
the floor of the half-up rounding, as Math.round computes for nonnegative
arguments (a zero total gives NaN in JavaScript and is outside the test
objects this agent builds). -/
def jsRoundPercent (passed total : Nat) : Nat := (200 * passed + total) / (2 * total)

/-- EnhancedUITestingAgent.calculateOverallScore (enhanced-ui-testing-agent.js
lines 345-352): Math.round of one hundred times the number of passing
top-level values over countAllTests of the whole object. -/
def calculateOverallScore (tests : TestFields) : Nat :=
  jsRoundPercent (passedCountFields tests) (countAllTestsFields tests)

mutual
/-- The number of leaf boolean tests of one value that are true, at every
nesting depth. -/
def trueLeafCount : TestVal → Nat
  | TestVal.leaf b => if b then 1 else 0
  | TestVal.node fs => trueLeafCountFields fs
/-- trueLeafCount over the fields of an object. -/
def trueLeafCountFields : TestFields → Nat
  | TestFields.nil => 0
  | TestFields.cons _ v rest => trueLeafCount v + trueLeafCountFields rest
end

/-- The overall score as the claim states it: the percentage of leaf
boolean tests that are true, rounded to the nearest integer. -/
def claimedOverallScore (tests : TestFields) : Nat :=
  jsRoundPercent (trueLeafCountFields tests) (countAllTestsFields tests)

/-- Whether every value of a tests object is a leaf boolean (no nesting). -/
def flatFields : TestFields → Bool
  | TestFields.nil => true
  | TestFields.cons _ (TestVal.leaf _) rest => flatFields rest
  | TestFields.cons _ _ _ => false

mutual
/-- Whether every leaf boolean test of one value is true. -/
def allLeavesTrue : TestVal → Bool
  | TestVal.leaf b => b
  | TestVal.node fs => allLeavesTrueFields fs
/-- allLeavesTrue over the fields of an object. -/
def allLeavesTrueFields : TestFields → Bool
  | TestFields.nil => true
  | TestFields.cons _ v rest => allLeavesTrue v && allLeavesTrueFields rest
end

/- -------------------------------------------------- -/
/- Manager event listeners (manager-agent.js 164-199)  -/
/- -------------------------------------------------- -/

/-- The agent lifecycle events the manager emits for one agent. -/
inductive AgentEvent where
  | started
  | completed
  | failed
deriving DecidableEq

/-- The effect of one event on one registry entry, as the listeners of
setupEventListeners record it (manager-agent.js lines 164-199): started
marks the agent running; completed marks it completed and increments
runCount; failed marks it failed and lowers successRate by ten, floored at
zero with Math.max. -/
def applyAgentEvent (s : AgentSpec) : AgentEvent → AgentSpec
  | AgentEvent.started => { s with status := "running" }
  | AgentEvent.completed => { s with status := "completed", runCount := s.runCount + 1 }
  | AgentEvent.failed =>
      { s with status := "failed", successRate := max 0 (s.successRate - 10) }

/-- The registry entry after a sequence of events. -/
def applyAgentEvents (s : AgentSpec) (events : List AgentEvent) : AgentSpec :=
  events.foldl applyAgentEvent s

/-- The number of failed events in a sequence. -/
def failedEventCount (events : List AgentEvent) : Nat :=
  (events.filter (fun e =>
    match e with
    | AgentEvent.failed => true
    | _ => false)).length

/- ================================================== -/
/- Shared helper lemmas                                -/
/- ================================================== -/

/-- Cancellation of a common prefix and a common suffix of string
concatenations. -/
theorem string_append_cancel {p s x y : String}
    (h : p ++ x ++ s = p ++ y ++ s) : x = y := by
  apply String.ext
  have hd := congrArg String.data h
  simp only [String.data_append] at hd
  exact List.append_cancel_left (List.append_cancel_right hd)

/-- The last element of a nonempty cons, with a default. -/
theorem getLast?_cons_getD {α : Type _} (v : α) (l : List α) :
    ∀ w, (v :: l).getLast?.getD w = l.getLast?.getD v := by
  induction l generalizing v with
  | nil => intro w; rfl
  | cons b t ih =>
      intro w
      rw [List.getLast?_cons_cons, ih b w, ih b v]

/- ================================================== -/
/- Claim C10: the successRate invariant                -/
/- ================================================== -/

/-- The successRate after a sequence of events, from any starting rate. -/
theorem applyAgentEvents_successRate_general :
    ∀ (events : List AgentEvent) (s : AgentSpec), 0 ≤ s.successRate →
      (applyAgentEvents s events).successRate =
        max 0 (s.successRate - 10 * (failedEventCount events : Int))
  | [], s, hs => by
      simp [applyAgentEvents, failedEventCount, List.filter]
      omega
  | AgentEvent.started :: rest, s, hs => by
      have h := applyAgentEvents_successRate_general rest
        { s with status := "running" } hs
      have hfc : failedEventCount (AgentEvent.started :: rest) = failedEventCount rest := by
        simp [failedEventCount, List.filter_cons]
      rw [show applyAgentEvents s (AgentEvent.started :: rest) =
        applyAgentEvents { s with status := "running" } rest from rfl, h, hfc]
  | AgentEvent.completed :: rest, s, hs => by
      have h := applyAgentEvents_successRate_general rest
        { s with status := "completed", runCount := s.runCount + 1 } hs
      have hfc : failedEventCount (AgentEvent.completed :: rest) = failedEventCount rest := by
        simp [failedEventCount, List.filter_cons]
      rw [show applyAgentEvents s (AgentEvent.completed :: rest) =
        applyAgentEvents { s with status := "completed", runCount := s.runCount + 1 } rest
        from rfl, h, hfc]
  | AgentEvent.failed :: rest, s, hs => by
      have h0 : (0 : Int) ≤ max 0 (s.successRate - 10) := le_max_left 0 _
      have h := applyAgentEvents_successRate_general rest
        { s with status := "failed", successRate := max 0 (s.successRate - 10) } h0
      have hfc : failedEventCount (AgentEvent.failed :: rest) = failedEventCount rest + 1 := by
        simp [failedEventCount, List.filter_cons]
      rw [show applyAgentEvents s (AgentEvent.failed :: rest) =
        applyAgentEvents
          { s with status := "failed", successRate := max 0 (s.successRate - 10) } rest
        from rfl, h, hfc]
      have hcast : ((failedEventCount rest + 1 : Nat) : Int) =
          (failedEventCount rest : Int) + 1 := by push_cast; ring
      rw [hcast]
      have hmax : ({ s with status := "failed", successRate := max 0 (s.successRate - 10) } : AgentSpec).successRate = max 0 (s.successRate - 10) := rfl
      rw [hmax]
      rcases le_total (s.successRate - 10) 0 with hle | hle
      · rw [max_eq_left hle]
        have hk : (0 : Int) ≤ 10 * (failedEventCount rest : Int) := by positivity
        rw [max_eq_left (by omega), max_eq_left (by omega)]
      · rw [max_eq_right hle]
        have : s.successRate - 10 * ((failedEventCount rest : Int) + 1) =
            s.successRate - 10 - 10 * (failedEventCount rest : Int) := by ring
        rw [this]

/-- Claim C10: every agent of the manager's registry starts with a
successRate of one hundred, and over any sequence of agent-started,
agent-completed and agent-failed events the successRate stays within zero
and one hundred, equals one hundred minus ten per failed event floored at
zero, and is therefore modified by no event other than agent-failed. -/
theorem managerAgents_successRate_invariant :
    (∀ p ∈ managerAgents, p.2.successRate = 100) ∧
    (∀ (s : AgentSpec) (events : List AgentEvent), s.successRate = 100 →
      (applyAgentEvents s events).successRate =
          max 0 (100 - 10 * (failedEventCount events : Int)) ∧
        0 ≤ (applyAgentEvents s events).successRate ∧
        (applyAgentEvents s events).successRate ≤ 100) := by
  constructor
  · intro p hp
    fin_cases hp <;> rfl
  · intro s events hs
    have h := applyAgentEvents_successRate_general events s (by rw [hs]; omega)
    rw [hs] at h
    refine ⟨h, ?_, ?_⟩ <;> rw [h] <;> omega

/-- Witness for claim C10: the developer registry entry after two failures,
a start and a completion has successRate eighty, within bounds. -/
theorem managerAgents_successRate_invariant_witness :
    (applyAgentEvents
      { dependencies := [], resourceUsage := "low", priority := 1,
        estimatedDuration := 30, status := "idle", successRate := 100, runCount := 0 }
      [AgentEvent.failed, AgentEvent.failed, AgentEvent.started,
       AgentEvent.completed]).successRate =
        max 0 (100 - 10 * (failedEventCount
          [AgentEvent.failed, AgentEvent.failed, AgentEvent.started,
           AgentEvent.completed] : Int)) := by
  exact (managerAgents_successRate_invariant.2
    { dependencies := [], resourceUsage := "low", priority := 1,
      estimatedDuration := 30, status := "idle", successRate := 100, runCount := 0 }
    [AgentEvent.failed, AgentEvent.failed, AgentEvent.started, AgentEvent.completed]
    rfl).1

/- ================================================== -/
/- Claim C4: auto-remediation retry count              -/
/- ================================================== -/

/-- A persistently failing agent is re-invoked once per unit of fuel, at
any invocation index, when its runCount stays at zero. -/
theorem remediation_always_fails (fuel : Nat) :
    ∀ k, remediationInvocations 3 (fun _ => true) fuel k 0 = fuel := by
  induction fuel with
  | zero => intro k; rfl
  | succ n ih =>
      intro k
      have hk := ih (k + 1)
      simp [remediationInvocations, hk]
      omega

/-- Claim C4 (code bug): with the default retry limit of three and an agent
that fails on every invocation, the number of executeAgent invocations
grows without bound instead of stopping after the limit, because runCount
is only incremented by the agent-completed listener and therefore never
reaches the limit on a failing agent; in particular ten invocations happen
within fuel ten, exceeding the one initial invocation plus three retries
the claim allows.  The timeout half of the claim does hold: getRetryConfig
returns the base configuration with only the timeout doubled. -/
theorem autoRemediation_unbounded_retries :
    (∀ fuel : Nat, remediationInvocations 3 (fun _ => true) fuel 0 0 = fuel) ∧
    remediationInvocations 3 (fun _ => true) 10 0 0 = 10 ∧
    (∀ base : RetryConfig,
      getRetryConfig base "Navigation timeout of 30000 ms exceeded" =
        { base with timeout := base.timeout * 2 }) := by
  refine ⟨fun fuel => remediation_always_fails fuel 0, rfl, fun base => rfl⟩

/- ================================================== -/
/- Claim C6: persisted file names                      -/
/- ================================================== -/

/-- Counterexample for claim C6: two distinct run timestamps on the same
day give the same manager report filename, so filenames of distinct runs do
not always differ. -/
theorem manager_report_filename_collision :
    "2026-10-11T01:00:00.000Z" ≠ "2026-10-11T09:30:00.000Z" ∧
    managerReportFilename "./manager-results" "2026-10-11T01:00:00.000Z" =
      managerReportFilename "./manager-results" "2026-10-11T09:30:00.000Z" := by
  constructor
  · decide
  · decide

/-- Claim C6 as amended: the per-run report files are named by the run's
date, so their names collide exactly for runs on the same date; the state
file read by loadState and written by saveState is one fixed name, shared
across runs; and the analysis files, named by the millisecond clock, do
differ across these two runs. -/
theorem manager_filenames_dated :
    (∀ dir t1 t2 : String,
      managerReportFilename dir t1 = managerReportFilename dir t2 ↔
        dateOf t1 = dateOf t2) ∧
    (∀ dir : String, loadStatePath dir = saveStatePath dir) ∧
    (analysisFilename "./manager-results" "Comprehensive Analysis" 1760140800000 ≠
      analysisFilename "./manager-results" "Comprehensive Analysis" 1760140800001) := by
  refine ⟨?_, fun dir => rfl, by decide⟩
  intro dir t1 t2
  constructor
  · intro h
    exact string_append_cancel h
  · intro h
    unfold managerReportFilename
    rw [h]

/-- Witness for claim C6: the filename equivalence applied at two concrete
same-day timestamps. -/
theorem manager_filenames_dated_witness :
    managerReportFilename "./manager-results" "2026-10-11T12:00:00.000Z" =
      managerReportFilename "./manager-results" "2026-10-11T23:59:59.999Z" := by
  exact (manager_filenames_dated.1 "./manager-results"
    "2026-10-11T12:00:00.000Z" "2026-10-11T23:59:59.999Z").mpr (by decide)

/- ================================================== -/
/- Claim C9: the overall score                         -/
/- ================================================== -/

/-- On a flat tests object the top-level pass count equals the number of
true leaves. -/
theorem passedCount_eq_trueLeaf_of_flat :
    ∀ tests : TestFields, flatFields tests = true →
      passedCountFields tests = trueLeafCountFields tests
  | TestFields.nil, _ => rfl
  | TestFields.cons _ (TestVal.leaf b) rest, h => by
      have hr := passedCount_eq_trueLeaf_of_flat rest (by simpa [flatFields] using h)
      cases b <;>
        simp [passedCountFields, trueLeafCountFields, passedDirectTest, trueLeafCount, hr]
  | TestFields.cons _ (TestVal.node _) rest, h => by
      simp [flatFields] at h

/-- On a flat, all-true tests object the top-level pass count equals the
total test count. -/
theorem passedCount_eq_count_of_flat_true :
    ∀ tests : TestFields, flatFields tests = true → allLeavesTrueFields tests = true →
      passedCountFields tests = countAllTestsFields tests
  | TestFields.nil, _, _ => rfl
  | TestFields.cons _ (TestVal.leaf b) rest, h, ht => by
      have hb : b = true := by
        cases b
        · simp [allLeavesTrueFields, allLeavesTrue] at ht
        · rfl
      subst hb
      have hr := passedCount_eq_count_of_flat_true rest
        (by simpa [flatFields] using h)
        (by simpa [allLeavesTrueFields, allLeavesTrue] using ht)
      simp [passedCountFields, countAllTestsFields, passedDirectTest, countAllTests, hr]
  | TestFields.cons _ (TestVal.node _) rest, h, _ => by
      simp [flatFields] at h

/-- A nonempty flat tests object has a positive test count. -/
theorem countAllTests_pos_of_flat :
    ∀ tests : TestFields, flatFields tests = true → tests ≠ TestFields.nil →
      0 < countAllTestsFields tests
  | TestFields.nil, _, hne => absurd rfl hne
  | TestFields.cons _ (TestVal.leaf _) rest, _, _ => by
      simp [countAllTestsFields, countAllTests]
  | TestFields.cons _ (TestVal.node _) rest, h, _ => by
      simp [flatFields] at h

/-- The half-up rounding of one hundred times a positive count over itself
is one hundred. -/
theorem jsRoundPercent_self (n : Nat) (h : 0 < n) : jsRoundPercent n n = 100 := by
  unfold jsRoundPercent
  have h2 : 200 * n + n = n + 2 * n * 100 := by ring
  rw [h2, Nat.add_mul_div_left n 100 (by omega), Nat.div_eq_of_lt (by omega)]

/-- Claim C9 as amended: calculateOverallScore agrees with the percentage
of true leaf tests, rounded half-up, on flat tests objects (no nested
responsive entry), and in particular returns one hundred on a nonempty
flat all-true tests object; the counterexample shows the agreement fails
once the responsive sub-objects are present. -/
theorem calculateOverallScore_flat_tests :
    (∀ tests : TestFields, flatFields tests = true →
      calculateOverallScore tests = claimedOverallScore tests) ∧
    (∀ tests : TestFields, tests ≠ TestFields.nil → flatFields tests = true →
      allLeavesTrueFields tests = true → calculateOverallScore tests = 100) := by
  constructor
  · intro tests h
    unfold calculateOverallScore claimedOverallScore
    rw [passedCount_eq_trueLeaf_of_flat tests h]
  · intro tests hne h ht
    unfold calculateOverallScore
    rw [passedCount_eq_count_of_flat_true tests h ht]
    exact jsRoundPercent_self _ (countAllTests_pos_of_flat tests h hne)

/-- A named leaf test that is true, for building concrete tests objects. -/
def trueTest (name : String) (rest : TestFields) : TestFields :=
  TestFields.cons name (TestVal.leaf true) rest

/-- One all-passing per-viewport responsive sub-object of testResponsive
(enhanced-ui-testing-agent.js lines 235-238). -/
def allTrueViewport : TestVal :=
  TestVal.node (TestFields.cons "correctNavigation" (TestVal.leaf true)
    (TestFields.cons "noHorizontalScroll" (TestVal.leaf true) TestFields.nil))

/-- The tests object of a non-contact testPage run with every check enabled
and every leaf test true: the nine basic structure tests, seven
accessibility tests, three performance tests, six SEO tests, and the
responsive entry with its three per-viewport sub-objects
(enhanced-ui-testing-agent.js lines 120-240). -/
def allTrueTestPageTests : TestFields :=
  trueTest "scrollProgress" (trueTest "enhancedHeader" (trueTest "servicesDropdown"
    (trueTest "activeNav" (trueTest "hasTitle" (trueTest "hasMetaDescription"
      (trueTest "hasH1" (trueTest "uniqueH1" (trueTest "hasCanonical"
        (trueTest "hasLang" (trueTest "imagesHaveAlt" (trueTest "linksHaveText"
          (trueTest "headingHierarchy" (trueTest "colorContrast" (trueTest "focusable"
            (trueTest "skipLinks" (trueTest "fastLoad" (trueTest "fastDOMLoad"
              (trueTest "reasonableResourceCount" (trueTest "titleLength"
                (trueTest "descriptionLength" (trueTest "h1HasKeywords"
                  (trueTest "hasStructuredData" (trueTest "hasOpenGraph"
                    (trueTest "hasTwitterCard"
                      (TestFields.cons "responsive"
                        (TestVal.node (TestFields.cons "mobile" allTrueViewport
                          (TestFields.cons "tablet" allTrueViewport
                            (TestFields.cons "desktop" allTrueViewport
                              TestFields.nil))))
                        TestFields.nil)))))))))))))))))))))))))

/-- Counterexample for claim C9: on the all-true full testPage tests object
every one of the thirty-one leaf tests is true, yet calculateOverallScore
returns eighty-one rather than one hundred, because the numerator counts
the responsive entry as a single failing item while the denominator counts
its six leaves. -/
theorem calculateOverallScore_not_percentage :
    allLeavesTrueFields allTrueTestPageTests = true ∧
    countAllTestsFields allTrueTestPageTests = 31 ∧
    calculateOverallScore allTrueTestPageTests = 81 ∧
    claimedOverallScore allTrueTestPageTests = 100 ∧
    calculateOverallScore allTrueTestPageTests ≠ 100 := by
  refine ⟨rfl, rfl, rfl, rfl, by decide⟩

/-- Witness for claim C9: the amended statement applied to a concrete flat
two-test object with one failing test, scoring fifty. -/
theorem calculateOverallScore_flat_tests_witness :
    calculateOverallScore (TestFields.cons "hasH1" (TestVal.leaf true)
        (TestFields.cons "uniqueH1" (TestVal.leaf false) TestFields.nil)) =
      claimedOverallScore (TestFields.cons "hasH1" (TestVal.leaf true)
        (TestFields.cons "uniqueH1" (TestVal.leaf false) TestFields.nil)) ∧
    calculateOverallScore (trueTest "hasH1" TestFields.nil) = 100 := by
  constructor
  · exact calculateOverallScore_flat_tests.1 _ rfl
  · exact calculateOverallScore_flat_tests.2 (trueTest "hasH1" TestFields.nil)
      (by intro h; cases h) rfl rfl

/- ================================================== -/
/- Claim C1: failure isolation across sibling agents   -/
/- ================================================== -/

/-- A behavior in which the developer agent throws and every other agent
returns a value. -/
def developerFailsBehavior : String → AgentResult := fun a =>
  if a == "developer" then AgentResult.errorField "analysis crashed"
  else AgentResult.success 1

/-- Counterexample for claim C1: in the sequential performance-focused
workflow (display name Performance Analysis), a developer failure is
recorded as an error entry but the sibling tester agent is never executed
and has no result entry, so one agent's failure does abort its siblings. -/
theorem sequential_failure_aborts_sibling :
    managerWorkflows.lookup "performance-focused" =
      some { displayName := "Performance Analysis", agents := ["developer", "tester"],
             mode := "sequential", estimatedDuration := 150 } ∧
    executeSequentialRun "Performance Analysis" developerFailsBehavior
        ["developer", "tester"] =
      [("developer", AgentResult.errorField "analysis crashed")] ∧
    (executeSequentialRun "Performance Analysis" developerFailsBehavior
        ["developer", "tester"]).lookup "tester" = none := by
  refine ⟨rfl, rfl, rfl⟩

/-- Claim C1 as amended: a failing agent is always caught and recorded as
an object carrying the error message under its own name; in parallel
execution every sibling is still executed and recorded, and in sequential
execution the same holds provided no failing agent is a critical one
(shouldStopOnFailure false, i.e. the failed agent is not the developer
agent or the workflow's display name is the string comprehensive, which no
built-in workflow carries); a critical failure stops the remaining
sequential siblings. -/
theorem workflow_failure_recording (agents : List String) (workflowName : String)
    (behave : String → AgentResult) :
    executeParallelRun agents behave = agents.map (fun a => (a, behave a)) ∧
    ((∀ a ∈ agents, ∀ m, behave a = AgentResult.errorField m →
        shouldStopOnFailure a workflowName = false) →
      executeSequentialRun workflowName behave agents =
        agents.map (fun a => (a, behave a))) := by
  constructor
  · induction agents with
    | nil => rfl
    | cons a rest ih =>
        simp only [executeParallelRun, processResults, List.map_cons, List.zip_cons_cons,
          List.map] at ih ⊢
        rw [show settleAgent behave a = (match behave a with
          | AgentResult.success v => SettledResult.fulfilled v
          | AgentResult.errorField m => SettledResult.rejected m) from rfl]
        cases hb : behave a <;> simp [hb] <;> exact ih
  · intro hnostop
    induction agents with
    | nil => rfl
    | cons a rest ih =>
        have hrest : ∀ a ∈ rest, ∀ m, behave a = AgentResult.errorField m →
            shouldStopOnFailure a workflowName = false := by
          intro x hx m hm
          exact hnostop x (List.mem_cons_of_mem a hx) m hm
        cases hb : behave a with
        | success v =>
            simp [executeSequentialRun, hb, ih hrest]
        | errorField m =>
            have hstop := hnostop a (List.mem_cons_self a rest) m hb
            simp [executeSequentialRun, hb, hstop, ih hrest]

/-- Witness for claim C1: the amended statement applied to the two-agent
list under the workflow name comprehensive, where shouldStopOnFailure is
always false, so the developer failure is recorded and the tester still
runs in both modes. -/
theorem workflow_failure_recording_witness :
    executeParallelRun ["developer", "tester"] developerFailsBehavior =
      [("developer", AgentResult.errorField "analysis crashed"),
       ("tester", AgentResult.success 1)] ∧
    executeSequentialRun "comprehensive" developerFailsBehavior ["developer", "tester"] =
      [("developer", AgentResult.errorField "analysis crashed"),
       ("tester", AgentResult.success 1)] := by
  have h := workflow_failure_recording ["developer", "tester"] "comprehensive"
    developerFailsBehavior
  constructor
  · rw [h.1]; rfl
  · rw [h.2 (fun a ha m hm => by simp [shouldStopOnFailure])]; rfl

/- ================================================== -/
/- Claim C3: orchestrator parallel result attribution  -/
/- ================================================== -/

/-- A behavior in which the tester fulfills with value one, the ui agent
fulfills with value two, and anything else rejects. -/
def testerUiBehavior : String → SettledResult := fun a =>
  if a == "tester" then SettledResult.fulfilled 1
  else if a == "ui" then SettledResult.fulfilled 2
  else SettledResult.rejected "unused"

/-- The line-95 guard for the name developer reads the existing property
runDeveloperAgent. -/
theorem orchestratorEnabled_developer (c : OrchestratorRunConfig) :
    orchestratorEnabled c "developer" = c.runDeveloperAgent := rfl

/-- The line-95 guard for the name tester reads the existing property
runTesterAgent. -/
theorem orchestratorEnabled_tester (c : OrchestratorRunConfig) :
    orchestratorEnabled c "tester" = c.runTesterAgent := rfl

/-- The line-95 guard for the name ui builds the key runUiAgent, which is
not a property of the config, so it is false for every config. -/
theorem orchestratorEnabled_ui (c : OrchestratorRunConfig) :
    orchestratorEnabled c "ui" = false := rfl

/-- Counterexample for claim C3.  First, the misattribution: with the
developer agent disabled and the tester and ui agents enabled, the
positional indexing of runAgentsInParallel stores the ui agent's
fulfilled value two under the tester's name, drops the tester's own
fulfilled value one, and records nothing under the enabled ui agent's
name.  Second, the dropped ui result: even with all three agents enabled
(the default), the ui agent's fulfilled value is never recorded, because
the line-95 guard looks up the nonexistent config key runUiAgent. -/
theorem runAgentsInParallel_misattributes :
    runAgentsInParallel
        { runDeveloperAgent := false, runTesterAgent := true,
          runUITestingAgent := true, runInParallel := true } testerUiBehavior =
      [("tester", 2)] ∧
    testerUiBehavior "tester" = SettledResult.fulfilled 1 ∧
    testerUiBehavior "ui" = SettledResult.fulfilled 2 ∧
    (runAgentsInParallel
        { runDeveloperAgent := false, runTesterAgent := true,
          runUITestingAgent := true, runInParallel := true } testerUiBehavior).lookup
      "ui" = none ∧
    (runAgentsInParallel
        { runDeveloperAgent := true, runTesterAgent := true,
          runUITestingAgent := true, runInParallel := true } testerUiBehavior).lookup
      "ui" = none := by
  refine ⟨rfl, rfl, rfl, rfl, rfl⟩

/-- Claim C3 as amended: runAgentsInParallel attributes settled results by
position in the fixed order developer, tester, ui, and stores a fulfilled
result only when the config key rebuilt from the positional name exists
and is enabled; for the name ui that key is the nonexistent runUiAgent, so
an entry under the name ui is never recorded, for any config and any
behavior.  Whenever the set of enabled agents is a prefix of the fixed
order (in particular when all three are enabled, the default), the started
agents line up with the fixed names, and the recorded results are exactly
the fulfilled outcomes of the enabled developer and tester agents under
their own names, the ui agent's fulfilled outcome being dropped; with
other subsets results are misattributed, as the counterexample shows. -/
theorem runAgentsInParallel_prefix_attribution (c : OrchestratorRunConfig)
    (behave : String → SettledResult)
    (hpre : ((!c.runTesterAgent || c.runDeveloperAgent) &&
      (!c.runUITestingAgent || c.runTesterAgent)) = true) :
    runAgentsInParallel c behave =
      (orchestratorStartedAgents c).filterMap (fun a =>
        if a == "ui" then none
        else match behave a with
          | SettledResult.fulfilled v => some (a, v)
          | SettledResult.rejected _ => none) ∧
    (∀ (c2 : OrchestratorRunConfig) (behave2 : String → SettledResult),
      (runAgentsInParallel c2 behave2).lookup "ui" = none) := by
  constructor
  · obtain ⟨d, t, u, p⟩ := c
    cases d <;> cases t <;> cases u <;> simp at hpre <;>
      cases hbd : behave "developer" <;> cases hbt : behave "tester" <;>
        cases hbu : behave "ui" <;>
        simp [runAgentsInParallel, orchestratorStartedAgents,
          orchestratorEnabled_developer, orchestratorEnabled_tester,
          orchestratorEnabled_ui, fixedParallelNames, List.enum, List.enumFrom,
          hbd, hbt, hbu]
  · intro c2 behave2
    obtain ⟨d, t, u, p⟩ := c2
    cases d <;> cases t <;> cases u <;>
      cases hbd : behave2 "developer" <;> cases hbt : behave2 "tester" <;>
        cases hbu : behave2 "ui" <;>
        simp [runAgentsInParallel, orchestratorStartedAgents,
          orchestratorEnabled_developer, orchestratorEnabled_tester,
          orchestratorEnabled_ui, fixedParallelNames, List.enum, List.enumFrom,
          List.lookup, hbd, hbt, hbu]

/-- Witness for claim C3: with all three agents enabled, the developer's
rejection is only logged, the tester's fulfilled value is recorded under
its own name, and the ui agent's fulfilled value is dropped: nothing is
recorded under the name ui. -/
theorem runAgentsInParallel_prefix_attribution_witness :
    runAgentsInParallel
        { runDeveloperAgent := true, runTesterAgent := true,
          runUITestingAgent := true, runInParallel := true } testerUiBehavior =
      [("tester", 1)] ∧
    (runAgentsInParallel
        { runDeveloperAgent := true, runTesterAgent := true,
          runUITestingAgent := true, runInParallel := true } testerUiBehavior).lookup
      "ui" = none := by
  have h := runAgentsInParallel_prefix_attribution
    { runDeveloperAgent := true, runTesterAgent := true,
      runUITestingAgent := true, runInParallel := true } testerUiBehavior (by decide)
  exact ⟨by rw [h.1]; rfl, h.2 _ testerUiBehavior⟩

/- ================================================== -/
/- Claim C8: CLI flag parsing                          -/
/- ================================================== -/

/-- Two strings distinguished by a boolean predicate are unequal under
boolean equality. -/
theorem beq_false_of_pred (p : String → Bool) {a b : String}
    (h : p a = true) (hpb : p b = false) : (a == b) = false := by
  rw [beq_eq_false_iff_ne]
  intro he
  subst he
  rw [h] at hpb
  cases hpb

/-- One orchestrator argument step turns the parallel option on exactly for
the literal parallel flag and otherwise leaves it. -/
theorem orchestratorArgStep_parallel (o : OrchestratorOptions) (a : String) :
    (orchestratorArgStep o a).parallel = (o.parallel || (a == "--parallel")) := by
  unfold orchestratorArgStep
  split_ifs with h1 h2 h3 h4
  · rw [beq_false_of_pred (fun x => jsStartsWith x "--config=") h1 (by decide)]
    simp
  · rw [beq_false_of_pred (fun x => jsStartsWith x "--agents=") h2 (by decide)]
    simp
  · simp [h3]
  · rw [beq_false_of_pred (fun x => x == "--help" || x == "-h") h4 (by decide)]
    simp
  · rw [Bool.not_eq_true] at h3
    simp [h3]

/-- The folded orchestrator argument loop reports the parallel option on
exactly when some argument is the literal parallel flag. -/
theorem parseOrchestratorArgs_parallel_fold (args : List String) :
    ∀ o : OrchestratorOptions,
      (args.foldl orchestratorArgStep o).parallel =
        (o.parallel || args.any (fun x => x == "--parallel")) := by
  induction args with
  | nil => intro o; simp
  | cons a t ih =>
      intro o
      rw [List.foldl_cons, ih (orchestratorArgStep o a), orchestratorArgStep_parallel]
      simp [Bool.or_assoc]

/-- One manager argument step sets the workflow option exactly for a
workflow flag and otherwise leaves it. -/
theorem managerArgStep_workflow (o : ManagerOptions) (a : String) :
    (managerArgStep o a).workflow =
      if jsStartsWith a "--workflow=" then cliArgValue a else o.workflow := by
  unfold managerArgStep
  split_ifs <;> rfl

/-- The folded manager argument loop reports the value of the last workflow
flag, or the initial default when none occurs. -/
theorem parseManagerArgs_workflow_fold (args : List String) :
    ∀ o : ManagerOptions,
      (args.foldl managerArgStep o).workflow =
        ((args.filterMap (fun a =>
          if jsStartsWith a "--workflow=" then some (cliArgValue a) else none)).getLast?.getD
            o.workflow) := by
  induction args with
  | nil => intro o; rfl
  | cons a t ih =>
      intro o
      rw [List.foldl_cons, ih (managerArgStep o a), managerArgStep_workflow]
      by_cases h : jsStartsWith a "--workflow=" = true
      · simp only [List.filterMap_cons, h, if_true]
        rw [getLast?_cons_getD]
      · simp [List.filterMap_cons, h]

/-- The runInParallel field of the final orchestrator configuration: the
agents override leaves it unchanged, so it is the file's value when the
file sets one and otherwise the parsed parallel flag. -/
theorem orchestratorCliConfig_runInParallel (args : List String)
    (file : Option OrchestratorFileConfig) :
    (orchestratorCliConfig args file).runInParallel =
      (orchestratorMergedConfig args file).runInParallel := by
  unfold orchestratorCliConfig orchestratorAgentsOverride
  split <;> rfl

/-- Claim C8 as amended: the orchestrator CLI's parallel option is on
exactly when the literal parallel flag is present, but a loaded config file
that sets runInParallel overrides the flag (the spread of the file comes
after the flag-derived base); an agents option other than all overwrites
the three run flags, after the file merge, to exactly the agents named in
the comma-separated trimmed list (dev or developer, test or tester, ui);
and the manager CLI selects the last workflow flag's value, defaulting to
comprehensive when absent. -/
theorem cli_flag_parsing (args : List String) (file : Option OrchestratorFileConfig) :
    (orchestratorCliConfig args file).runInParallel =
      (file.bind OrchestratorFileConfig.runInParallel).getD
        (args.any (fun x => x == "--parallel")) ∧
    ((parseOrchestratorArgs args).agents ≠ "all" →
      (orchestratorCliConfig args file).runDeveloperAgent =
          (((jsSplit (parseOrchestratorArgs args).agents ",").map jsTrim).contains "dev" ||
           ((jsSplit (parseOrchestratorArgs args).agents ",").map jsTrim).contains
             "developer") ∧
      (orchestratorCliConfig args file).runTesterAgent =
          (((jsSplit (parseOrchestratorArgs args).agents ",").map jsTrim).contains "test" ||
           ((jsSplit (parseOrchestratorArgs args).agents ",").map jsTrim).contains
             "tester") ∧
      (orchestratorCliConfig args file).runUITestingAgent =
          ((jsSplit (parseOrchestratorArgs args).agents ",").map jsTrim).contains "ui") ∧
    (parseManagerArgs args).workflow =
      ((args.filterMap (fun a =>
        if jsStartsWith a "--workflow=" then some (cliArgValue a) else none)).getLast?.getD
          "comprehensive") := by
  have hp : (parseOrchestratorArgs args).parallel =
      args.any (fun x => x == "--parallel") := by
    rw [parseOrchestratorArgs, parseOrchestratorArgs_parallel_fold]
    simp
  refine ⟨?_, ?_, ?_⟩
  · rw [orchestratorCliConfig_runInParallel]
    cases file with
    | none => simp [orchestratorMergedConfig, hp]
    | some f =>
        cases hf : f.runInParallel <;> simp [orchestratorMergedConfig, hf, hp]
  · intro hne
    have hbne : ((parseOrchestratorArgs args).agents != "all") = true := bne_iff_ne.mpr hne
    unfold orchestratorCliConfig orchestratorAgentsOverride
    rw [if_pos hbne]
    exact ⟨rfl, rfl, rfl⟩
  · rw [parseManagerArgs, parseManagerArgs_workflow_fold]

/-- Counterexample for claim C8: with the parallel flag present but an
orchestrator config file that sets runInParallel to false, the final
configuration has runInParallel false, so the flag's presence does not set
it to true. -/
theorem cli_parallel_overridden_by_config :
    (parseOrchestratorArgs ["--parallel"]).parallel = true ∧
    (orchestratorCliConfig ["--parallel"]
        (some { runDeveloperAgent := none, runTesterAgent := none,
                runUITestingAgent := none, runInParallel := some false })).runInParallel =
      false := by
  constructor <;> decide

/-- Witness for claim C8: the agents selection dev, ui enables exactly the
developer and ui agents, and the workflow flag selects quick-check. -/
theorem cli_flag_parsing_witness :
    (orchestratorCliConfig ["--agents=dev,ui"] none).runDeveloperAgent = true ∧
    (orchestratorCliConfig ["--agents=dev,ui"] none).runTesterAgent = false ∧
    (orchestratorCliConfig ["--agents=dev,ui"] none).runUITestingAgent = true ∧
    (parseManagerArgs ["--workflow=quick-check"]).workflow = "quick-check" ∧
    (orchestratorCliConfig ["--parallel"] none).runInParallel = true := by
  have h := (cli_flag_parsing ["--agents=dev,ui"] none).2.1 (by decide)
  have h3 := (cli_flag_parsing ["--workflow=quick-check"] none).2.2
  have h4 := (cli_flag_parsing ["--parallel"] none).1
  refine ⟨?_, ?_, ?_, ?_, ?_⟩
  · rw [h.1]; decide
  · rw [h.2.1]; decide
  · rw [h.2.2]; decide
  · rw [h3]; decide
  · rw [h4]; decide

/- ================================================== -/
/- Claim C7: batch size of parallel execution          -/
/- ================================================== -/

/-- Claim C7: every workflow of the built-in table whose mode is parallel
lists at most three agents for its single allSettled batch; in adaptive
mode every parallel batch drawn from the registry's agent names has at most
three agents, because the tester agent (the only high-resource one) is
always sent to the sequential branch, leaving at most developer, ui and
orchestrator; and the orchestrator's runAgentsInParallel starts at most
three promises. -/
theorem parallel_batch_at_most_three :
    (∀ p ∈ managerWorkflows, p.2.mode = "parallel" → p.2.agents.length ≤ 3) ∧
    (∀ (canPar : Bool) (ready : List String), ready.Nodup →
      (∀ a ∈ ready, a ∈ managerAgentNames) →
      (categorizeParallel managerResourceUsage canPar ready).length ≤ 3) ∧
    (∀ c : OrchestratorRunConfig, (orchestratorStartedAgents c).length ≤ 3) := by
  refine ⟨by decide, ?_, ?_⟩
  · intro canPar ready hnd hmem
    cases canPar with
    | false => simp [categorizeParallel]
    | true =>
        unfold categorizeParallel
        rw [if_pos rfl]
        have hsub : ∀ x ∈ ready.filter (fun a => managerResourceUsage a != "high"),
            x ∈ ["developer", "ui", "orchestrator"] := by
          intro x hx
          have hxr := List.mem_filter.mp hx
          have hxm := hmem x hxr.1
          have hxh := hxr.2
          fin_cases hxm
          · decide
          · exact absurd hxh (by decide)
          · decide
          · decide
        have hndl : (ready.filter (fun a => managerResourceUsage a != "high")).Nodup :=
          hnd.filter _
        have hcard := List.toFinset_card_of_nodup hndl
        have hsubF : (ready.filter (fun a => managerResourceUsage a != "high")).toFinset ⊆
            (["developer", "ui", "orchestrator"] : List String).toFinset := by
          intro x hx
          rw [List.mem_toFinset] at hx ⊢
          exact hsub x hx
        have hle := Finset.card_le_card hsubF
        rw [hcard] at hle
        exact le_trans hle (by decide)
  · intro c
    obtain ⟨d, t, u, p⟩ := c
    cases d <;> cases t <;> cases u <;> cases p <;> decide

/-- Witness for claim C7: the quick-check workflow's parallel batch and a
concrete full ready set from the registry both stay within three agents. -/
theorem parallel_batch_at_most_three_witness :
    ({ displayName := "Quick Health Check", agents := ["developer", "ui"],
       mode := "parallel", estimatedDuration := 90 } : WorkflowSpec).agents.length ≤ 3 ∧
    (categorizeParallel managerResourceUsage true
      ["developer", "tester", "ui"]).length ≤ 3 := by
  constructor
  · exact parallel_batch_at_most_three.1
      ("quick-check",
        { displayName := "Quick Health Check", agents := ["developer", "ui"],
          mode := "parallel", estimatedDuration := 90 })
      (by decide) rfl
  · exact parallel_batch_at_most_three.2.1 true ["developer", "tester", "ui"]
      (by decide) (by decide)

/- ================================================== -/
/- Claim C5: checkDependencies (manager-agent.js       -/
/- lines 305-338)                                      -/
/- ================================================== -/

/-- The registry as checkDependencies reads it: agent names with their
dependency lists. -/
def managerDepsReg : List (String × List String) :=
  managerAgents.map (fun p => (p.1, p.2.dependencies))

/-- The dependency list of an agent in a registry: the lookup of
manager-agent.js line 319, with no dependencies for an undefined entry
(lines 320-325 skip the loop then). -/
def depsOf (reg : List (String × List String)) (a : String) : List String :=
  match reg.lookup a with
  | some ds => ds
  | none => []

/-- A pending piece of work of the checkDependencies depth-first search:
either the visit of one agent (the recursive visit function of
manager-agent.js lines 309-330) or the loop over a list of dependencies
(lines 321-324). -/
inductive VisitTask where
  | agent (a : String)
  | deps (ds : List String)
deriving DecidableEq

/-- The agents a task starts from: the visited agent, or the dependency
list being looped over. -/
def taskSources : VisitTask → List String
  | VisitTask.agent a => [a]
  | VisitTask.deps ds => ds

/-- The depth-first search of checkDependencies (manager-agent.js lines
305-338), with the visiting set as the stack of the current path and the
resolved set as a list in insertion order; a visit of an agent already in
visiting reports a circular dependency (valid false), one already resolved
succeeds at once, and otherwise the dependencies are visited in order and
the agent is appended to resolved.  The fuel only bounds the recursion
depth; checkFuel below always suffices. -/
def visitFuel (reg : List (String × List String)) :
    Nat → List String → List String → VisitTask → Option (Bool × List String)
  | 0, _, _, _ => none
  | fuel + 1, visiting, resolved, VisitTask.agent a =>
    if visiting.contains a then some (false, resolved)
    else if resolved.contains a then some (true, resolved)
    else
      match visitFuel reg fuel (a :: visiting) resolved (VisitTask.deps (depsOf reg a)) with
      | none => none
      | some (false, r) => some (false, r)
      | some (true, r) => some (true, r ++ [a])
  | _ + 1, _, resolved, VisitTask.deps [] => some (true, resolved)
  | fuel + 1, visiting, resolved, VisitTask.deps (d :: ds) =>
    match visitFuel reg fuel visiting resolved (VisitTask.agent d) with
    | none => none
    | some (false, r) => some (false, r)
    | some (true, r) => visitFuel reg fuel visiting r (VisitTask.deps ds)

/-- The outer loop of checkDependencies (manager-agent.js lines 332-335):
visit each given agent name in turn with an empty visiting stack, carrying
the resolved set, and report invalid as soon as one visit does. -/
def checkDependenciesGo (reg : List (String × List String)) (fuel : Nat) :
    List String → List String → Bool
  | _, [] => true
  | resolved, n :: ns =>
    match visitFuel reg fuel [] resolved (VisitTask.agent n) with
    | none => false
    | some (false, _) => false
    | some (true, r) => checkDependenciesGo reg fuel r ns

/-- The longest dependency list of the registry. -/
def maxDepsLen (reg : List (String × List String)) : Nat :=
  reg.foldr (fun p m => max p.2.length m) 0

/-- A recursion-depth bound sufficient for the whole search: the visiting
stack only ever grows by agents of the registry's domain, so the depth is
bounded by the domain size times the work per agent. -/
def checkFuel (reg : List (String × List String)) : Nat :=
  (2 * maxDepsLen reg + 2) * reg.length + 2

/-- ManagerAgent.checkDependencies (manager-agent.js lines 305-338) as the
boolean valid field of its result. -/
def checkDependenciesValid (reg : List (String × List String)) (names : List String) :
    Bool :=
  checkDependenciesGo reg (checkFuel reg) [] names

/-- One dependency edge: d is among the dependencies of a. -/
def DepEdge (deps : String → List String) (a d : String) : Prop := d ∈ deps a

/-- Every agent occurring in the list has all its dependencies strictly
earlier in the list. -/
def DepsBeforeList (deps : String → List String) (names : List String) : Prop :=
  ∀ l1 a l2, names = l1 ++ a :: l2 → ∀ d ∈ deps a, d ∈ l1

/-- The consecutive dependency edges along the visiting stack: the current
agent is a dependency of the stack's top, which is a dependency of the next
entry, and so on. -/
def StackChain (deps : String → List String) : List String → String → Prop
  | [], _ => True
  | w :: ws, a => DepEdge deps w a ∧ StackChain deps ws w

/-- The invariant carried by a successful visit. -/
def VisitOk (reg : List (String × List String)) (v r : List String) (task : VisitTask)
    (b : Bool) (r2 : List String) : Prop :=
  (∃ ext, r2 = r ++ ext ∧ ∀ y ∈ ext, y ∉ v) ∧
  (r.Nodup → r2.Nodup) ∧
  (DepsBeforeList (depsOf reg) r → DepsBeforeList (depsOf reg) r2) ∧
  (b = true → ∀ s ∈ taskSources task, s ∈ r2)

/-- Appending agents whose dependencies all lie in the prefix preserves the
dependencies-before property. -/
theorem depsBeforeList_append (deps : String → List String) (pre batch : List String)
    (h1 : DepsBeforeList deps pre) (h2 : ∀ a ∈ batch, ∀ d ∈ deps a, d ∈ pre) :
    DepsBeforeList deps (pre ++ batch) := by
  intro l1 a l2 heq d hd
  rcases List.append_eq_append_iff.mp heq with ⟨m, hc, hb⟩ | ⟨m, hc, hb⟩
  · have ha : a ∈ batch := by
      rw [hb]
      exact List.mem_append_right m (List.mem_cons_self a l2)
    rw [hc]
    exact List.mem_append_left m (h2 a ha d hd)
  · cases m with
    | nil =>
        have hc2 : pre = l1 := by simpa using hc
        have hb2 : a :: l2 = batch := by simpa using hb
        have ha : a ∈ batch := hb2 ▸ List.mem_cons_self a l2
        exact hc2 ▸ h2 a ha d hd
    | cons x m2 =>
        have hax : a = x := (List.cons.injEq a l2 x (m2 ++ batch)).mp (by simpa using hb) |>.1
        subst hax
        exact h1 l1 a m2 hc d hd

/-- A list with dependencies-before is closed under taking dependencies. -/
theorem depsClosed_of_depsBeforeList (deps : String → List String) (r : List String)
    (h : DepsBeforeList deps r) : ∀ x ∈ r, ∀ d ∈ deps x, d ∈ r := by
  intro x hx d hd
  obtain ⟨s, t, hst⟩ := List.append_of_mem hx
  rw [hst]
  exact List.mem_append_left _ (h s x t hst d hd)

/-- A list with dependencies-before contains every agent reachable along
dependency edges from one of its members. -/
theorem reach_mem_of_depsBeforeList (deps : String → List String) (r : List String)
    (h : DepsBeforeList deps r) :
    ∀ x ∈ r, ∀ y, Relation.ReflTransGen (DepEdge deps) x y → y ∈ r := by
  intro x hx y hxy
  induction hxy with
  | refl => exact hx
  | tail hab hbc ih => exact depsClosed_of_depsBeforeList deps r h _ ih _ hbc

/-- A duplicate-free list with dependencies-before carries no dependency
cycle through any of its members. -/
theorem no_cycle_of_depsBeforeList (deps : String → List String) :
    ∀ r : List String, DepsBeforeList deps r → r.Nodup →
      ∀ x ∈ r, ¬ Relation.TransGen (DepEdge deps) x x := by
  intro r
  induction r using List.reverseRecOn with
  | nil => intro _ _ x hx; simp at hx
  | append_singleton r0 a ih =>
      intro hdb hnd x hx hcyc
      have hdb0 : DepsBeforeList deps r0 := by
        intro l1 b l2 heq d hd
        exact hdb l1 b (l2 ++ [a]) (by rw [heq]; simp) d hd
      obtain ⟨hnd0, _, hdisj⟩ := List.nodup_append.mp hnd
      have hanotin : a ∉ r0 := by
        intro hmem
        exact hdisj hmem (List.mem_singleton_self a)
      have hdeps_a : ∀ d ∈ deps a, d ∈ r0 := fun d hd => hdb r0 a [] rfl d hd
      rcases List.mem_append.mp hx with hx0 | hxa
      · exact ih hdb0 hnd0 x hx0 hcyc
      · have hxa2 : x = a := by simpa using hxa
        subst hxa2
        obtain ⟨d, had, hda⟩ := Relation.TransGen.head'_iff.mp hcyc
        exact hanotin
          (reach_mem_of_depsBeforeList deps r0 hdb0 d (hdeps_a d had) x hda)

/-- Preservation of the visit invariant: every successful call of the
search extends the resolved list by agents outside the visiting stack,
preserves freedom from duplicates and the dependencies-before property,
and on a valid answer has resolved all the task's source agents. -/
theorem visitFuel_pack (reg : List (String × List String)) :
    ∀ (fuel : Nat) (v r : List String) (task : VisitTask) (b : Bool) (r2 : List String),
      visitFuel reg fuel v r task = some (b, r2) → VisitOk reg v r task b r2 := by
  intro fuel
  induction fuel with
  | zero => intro v r task b r2 h; simp [visitFuel] at h
  | succ n ih =>
      intro v r task b r2 h
      cases task with
      | agent a =>
          rw [visitFuel] at h
          by_cases hv : v.contains a = true
          · rw [if_pos hv] at h
            injection h with h1
            injection h1 with hb hr2
            subst hb; subst hr2
            exact ⟨⟨[], by simp, by simp⟩, id, id, fun hb => by cases hb⟩
          · rw [if_neg hv] at h
            by_cases hr : r.contains a = true
            · rw [if_pos hr] at h
              injection h with h1
              injection h1 with hb hr2
              subst hb; subst hr2
              refine ⟨⟨[], by simp, by simp⟩, id, id, fun _ s hs => ?_⟩
              have hsa : s = a := by simpa [taskSources] using hs
              subst hsa
              exact (List.elem_iff).mp hr
            · rw [if_neg hr] at h
              cases hrec : visitFuel reg n (a :: v) r (VisitTask.deps (depsOf reg a)) with
              | none => rw [hrec] at h; cases h
              | some p =>
                  obtain ⟨b1, r1⟩ := p
                  rw [hrec] at h
                  obtain ⟨⟨ext1, hre, hnotin1⟩, hnodup1, hdb1, hmem1⟩ := ih _ _ _ _ _ hrec
                  cases b1 with
                  | false =>
                      injection h with h1
                      injection h1 with hb hr2
                      subst hb; subst hr2
                      refine ⟨⟨ext1, hre, ?_⟩, hnodup1, hdb1, fun hb => by cases hb⟩
                      intro y hy
                      have := hnotin1 y hy
                      intro hyv
                      exact this (List.mem_cons_of_mem a hyv)
                  | true =>
                      injection h with h1
                      injection h1 with hb hr2
                      subst hb; subst hr2
                      have hanotr1 : a ∉ r1 := by
                        rw [hre]
                        intro hmem
                        rcases List.mem_append.mp hmem with hm | hm
                        · exact hr ((List.elem_iff).mpr hm)
                        · exact hnotin1 a hm (List.mem_cons_self a v)
                      refine ⟨⟨ext1 ++ [a], by rw [hre, List.append_assoc], ?_⟩, ?_, ?_, ?_⟩
                      · intro y hy
                        rcases List.mem_append.mp hy with hm | hm
                        · intro hyv
                          exact hnotin1 y hm (List.mem_cons_of_mem a hyv)
                        · have hya : y = a := by simpa using hm
                          subst hya
                          intro hyv
                          exact hv ((List.elem_iff).mpr hyv)
                      · intro hndr
                        rw [List.nodup_append]
                        refine ⟨hnodup1 hndr, List.nodup_singleton a, fun x hx hx2 => ?_⟩
                        have hxa : x = a := by simpa using hx2
                        subst hxa
                        exact hanotr1 hx
                      · intro hdbr
                        exact depsBeforeList_append (depsOf reg) r1 [a] (hdb1 hdbr)
                          (fun x hx d hd => by
                            have hxa : x = a := by simpa using hx
                            subst hxa
                            exact hmem1 rfl d hd)
                      · intro _ s hs
                        have hsa : s = a := by simpa [taskSources] using hs
                        subst hsa
                        exact List.mem_append_right r1 (List.mem_singleton_self s)
      | deps ds =>
          cases ds with
          | nil =>
              rw [visitFuel] at h
              injection h with h1
              injection h1 with hb hr2
              subst hb; subst hr2
              exact ⟨⟨[], by simp, by simp⟩, id, id, fun _ s hs => by simp [taskSources] at hs⟩
          | cons d ds2 =>
              rw [visitFuel] at h
              cases hrec : visitFuel reg n v r (VisitTask.agent d) with
              | none => rw [hrec] at h; cases h
              | some p =>
                  obtain ⟨b1, r1⟩ := p
                  rw [hrec] at h
                  obtain ⟨⟨ext1, hre, hnotin1⟩, hnodup1, hdb1, hmem1⟩ := ih _ _ _ _ _ hrec
                  cases b1 with
                  | false =>
                      injection h with h1
                      injection h1 with hb hr2
                      subst hb; subst hr2
                      exact ⟨⟨ext1, hre, hnotin1⟩, hnodup1, hdb1, fun hb => by cases hb⟩
                  | true =>
                      obtain ⟨⟨ext2, hre2, hnotin2⟩, hnodup2, hdb2, hmem2⟩ := ih _ _ _ _ _ h
                      refine ⟨⟨ext1 ++ ext2, by rw [hre2, hre, List.append_assoc], ?_⟩,
                        fun hnd => hnodup2 (hnodup1 hnd), fun hdb => hdb2 (hdb1 hdb), ?_⟩
                      · intro y hy
                        rcases List.mem_append.mp hy with hm | hm
                        · exact hnotin1 y hm
                        · exact hnotin2 y hm
                      · intro hb s hs
                        rcases List.mem_cons.mp hs with hsd | hsm
                        · subst hsd
                          rw [hre2]
                          exact List.mem_append_left ext2 (hmem1 rfl s (by simp [taskSources]))
                        · exact hmem2 hb s hsm

/-- A valid visit resolves every agent reachable along dependency edges
from the task's sources. -/
theorem visitFuel_reach (reg : List (String × List String)) :
    ∀ (fuel : Nat) (v r : List String) (task : VisitTask) (r2 : List String),
      DepsBeforeList (depsOf reg) r →
      visitFuel reg fuel v r task = some (true, r2) →
      ∀ s ∈ taskSources task, ∀ x,
        Relation.ReflTransGen (DepEdge (depsOf reg)) s x → x ∈ r2 := by
  intro fuel
  induction fuel with
  | zero => intro v r task r2 _ h; simp [visitFuel] at h
  | succ n ih =>
      intro v r task r2 hdb h
      cases task with
      | agent a =>
          rw [visitFuel] at h
          by_cases hv : v.contains a = true
          · rw [if_pos hv] at h
            injection h with h1
            injection h1 with hb _
            cases hb
          · rw [if_neg hv] at h
            by_cases hr : r.contains a = true
            · rw [if_pos hr] at h
              injection h with h1
              injection h1 with _ hr2
              subst hr2
              intro s hs x hsx
              have hsa : s = a := by simpa [taskSources] using hs
              subst hsa
              exact reach_mem_of_depsBeforeList _ r hdb s ((List.elem_iff).mp hr) x hsx
            · rw [if_neg hr] at h
              cases hrec : visitFuel reg n (a :: v) r (VisitTask.deps (depsOf reg a)) with
              | none => rw [hrec] at h; cases h
              | some p =>
                  obtain ⟨b1, r1⟩ := p
                  rw [hrec] at h
                  cases b1 with
                  | false =>
                      injection h with h1
                      injection h1 with hb _
                      cases hb
                  | true =>
                      injection h with h1
                      injection h1 with _ hr2
                      subst hr2
                      intro s hs x hsx
                      have hsa : s = a := by simpa [taskSources] using hs
                      subst hsa
                      rcases Relation.ReflTransGen.cases_head hsx with hxa | ⟨c, hac, hcx⟩
                      · rw [← hxa]
                        exact List.mem_append_right r1 (List.mem_singleton_self s)
                      · have hx1 : x ∈ r1 := ih _ _ _ _ hdb hrec c hac x hcx
                        exact List.mem_append_left _ hx1
      | deps ds =>
          cases ds with
          | nil => intro s hs; simp [taskSources] at hs
          | cons d ds2 =>
              rw [visitFuel] at h
              cases hrec : visitFuel reg n v r (VisitTask.agent d) with
              | none => rw [hrec] at h; cases h
              | some p =>
                  obtain ⟨b1, r1⟩ := p
                  rw [hrec] at h
                  cases b1 with
                  | false =>
                      injection h with h1
                      injection h1 with hb _
                      cases hb
                  | true =>
                      have hdb1 : DepsBeforeList (depsOf reg) r1 :=
                        (visitFuel_pack reg n v r _ _ _ hrec).2.2.1 hdb
                      obtain ⟨ext2, hre2, _⟩ := (visitFuel_pack reg n v r1 _ _ _ h).1
                      intro s hs x hsx
                      rcases List.mem_cons.mp hs with hsd | hsm
                      · subst hsd
                        have hx1 : x ∈ r1 :=
                          ih _ _ _ _ hdb hrec s (by simp [taskSources]) x hsx
                        rw [hre2]
                        exact List.mem_append_left _ hx1
                      · exact ih _ _ _ _ hdb1 h s hsm x hsx

/-- Every member of the visiting stack has a dependency path to the
currently visited agent. -/
theorem stackChain_transGen (deps : String → List String) :
    ∀ (v : List String) (a w : String), StackChain deps v a → w ∈ v →
      Relation.TransGen (DepEdge deps) w a := by
  intro v
  induction v with
  | nil => intro a w _ hw; simp at hw
  | cons x ws ih =>
      intro a w hchain hw
      obtain ⟨hedge, hrest⟩ := hchain
      rcases List.mem_cons.mp hw with hwx | hwm
      · subst hwx
        exact Relation.TransGen.single hedge
      · exact (ih x w hrest hwm).tail hedge

/-- An invalid visit exhibits a dependency cycle reachable from one of the
task's sources. -/
theorem visitFuel_false_cycle (reg : List (String × List String)) :
    ∀ (fuel : Nat) (v r : List String) (task : VisitTask) (r2 : List String),
      (∀ s ∈ taskSources task, StackChain (depsOf reg) v s) →
      visitFuel reg fuel v r task = some (false, r2) →
      ∃ s ∈ taskSources task, ∃ x,
        Relation.ReflTransGen (DepEdge (depsOf reg)) s x ∧
          Relation.TransGen (DepEdge (depsOf reg)) x x := by
  intro fuel
  induction fuel with
  | zero => intro v r task r2 _ h; simp [visitFuel] at h
  | succ n ih =>
      intro v r task r2 hchain h
      cases task with
      | agent a =>
          rw [visitFuel] at h
          by_cases hv : v.contains a = true
          · refine ⟨a, by simp [taskSources], a, Relation.ReflTransGen.refl, ?_⟩
            exact stackChain_transGen _ v a a (hchain a (by simp [taskSources]))
              ((List.elem_iff).mp hv)
          · rw [if_neg hv] at h
            by_cases hr : r.contains a = true
            · rw [if_pos hr] at h
              injection h with h1
              injection h1 with hb _
              cases hb
            · rw [if_neg hr] at h
              cases hrec : visitFuel reg n (a :: v) r (VisitTask.deps (depsOf reg a)) with
              | none => rw [hrec] at h; cases h
              | some p =>
                  obtain ⟨b1, r1⟩ := p
                  rw [hrec] at h
                  cases b1 with
                  | true =>
                      injection h with h1
                      injection h1 with hb _
                      cases hb
                  | false =>
                      have hchain2 : ∀ s ∈ taskSources (VisitTask.deps (depsOf reg a)),
                          StackChain (depsOf reg) (a :: v) s := by
                        intro s hs
                        exact ⟨hs, hchain a (by simp [taskSources])⟩
                      obtain ⟨d, hd, x, hdx, hcyc⟩ := ih _ _ _ _ hchain2 hrec
                      refine ⟨a, by simp [taskSources], x, ?_, hcyc⟩
                      exact Relation.ReflTransGen.head hd hdx
      | deps ds =>
          cases ds with
          | nil =>
              rw [visitFuel] at h
              injection h with h1
              injection h1 with hb _
              cases hb
          | cons d ds2 =>
              rw [visitFuel] at h
              cases hrec : visitFuel reg n v r (VisitTask.agent d) with
              | none => rw [hrec] at h; cases h
              | some p =>
                  obtain ⟨b1, r1⟩ := p
                  rw [hrec] at h
                  cases b1 with
                  | false =>
                      have hch : ∀ s ∈ taskSources (VisitTask.agent d),
                          StackChain (depsOf reg) v s := by
                        intro s hs
                        have hsd : s = d := by simpa [taskSources] using hs
                        rw [hsd]
                        exact hchain d (List.mem_cons_self d ds2)
                      obtain ⟨s, hsmem, x, hsx, hcyc⟩ :=
                        ih v r (VisitTask.agent d) r1 hch hrec
                      have hsd : s = d := by simpa [taskSources] using hsmem
                      rw [hsd] at hsx
                      exact ⟨d, List.mem_cons_self _ _, x, hsx, hcyc⟩
                  | true =>
                      obtain ⟨s, hsmem, x, hsx, hcyc⟩ :=
                        ih v r1 (VisitTask.deps ds2) r2
                          (fun s hs => hchain s (List.mem_cons_of_mem d hs)) h
                      exact ⟨s, List.mem_cons_of_mem d hsmem, x, hsx, hcyc⟩

/-- The registry's domain as a finite set of agent names. -/
def regDomain (reg : List (String × List String)) : Finset String :=
  (reg.map Prod.fst).toFinset

/-- An agent with a nonempty dependency list is in the registry's domain. -/
theorem lookup_mem_of_deps_ne_nil (reg : List (String × List String)) (a : String)
    (h : depsOf reg a ≠ []) : a ∈ reg.map Prod.fst := by
  unfold depsOf at h
  cases hl : reg.lookup a with
  | none => rw [hl] at h; exact absurd rfl h
  | some ds =>
      clear h
      induction reg with
      | nil => cases hl
      | cons p t ih =>
          obtain ⟨k, vds⟩ := p
          rw [List.lookup_cons] at hl
          cases hk : (a == k) with
          | true =>
              have hak : a = k := by simpa using hk
              subst hak
              simp
          | false =>
              simp only [hk] at hl
              exact List.mem_cons_of_mem _ (ih hl)

/-- A successful lookup returns a dependency list no longer than the
registry's longest. -/
theorem lookup_length_le (reg : List (String × List String)) (a : String)
    (ds : List String) : reg.lookup a = some ds → ds.length ≤ maxDepsLen reg := by
  induction reg with
  | nil => intro h; cases h
  | cons p t ih =>
      intro h
      obtain ⟨k, vds⟩ := p
      rw [List.lookup_cons] at h
      cases hk : (a == k) with
      | true =>
          simp only [hk] at h
          injection h with hds
          subst hds
          exact le_max_left _ _
      | false =>
          simp only [hk] at h
          exact le_trans (ih h) (le_max_right _ _)

/-- Every dependency list is no longer than the registry's longest. -/
theorem depsOf_length_le (reg : List (String × List String)) (a : String) :
    (depsOf reg a).length ≤ maxDepsLen reg := by
  unfold depsOf
  cases hl : reg.lookup a with
  | none => simp
  | some ds => simpa using lookup_length_le reg a ds hl

/-- Pushing onto the visiting stack cannot grow the unvisited domain. -/
theorem domCard_cons_le (reg : List (String × List String)) (a : String)
    (v : List String) :
    (regDomain reg \ (a :: v).toFinset).card ≤ (regDomain reg \ v.toFinset).card := by
  apply Finset.card_le_card
  apply Finset.sdiff_subset_sdiff (Finset.Subset.refl _)
  rw [List.toFinset_cons]
  exact Finset.subset_insert a _

/-- Pushing an unvisited domain agent onto the visiting stack strictly
shrinks the unvisited domain. -/
theorem domCard_cons_lt (reg : List (String × List String)) (a : String)
    (v : List String) (hmem : a ∈ reg.map Prod.fst) (hnv : a ∉ v) :
    (regDomain reg \ (a :: v).toFinset).card + 1 ≤
      (regDomain reg \ v.toFinset).card := by
  rw [List.toFinset_cons, Finset.sdiff_insert]
  have hin : a ∈ regDomain reg \ v.toFinset := by
    rw [Finset.mem_sdiff]
    exact ⟨List.mem_toFinset.mpr hmem, fun hc => hnv (List.mem_toFinset.mp hc)⟩
  have := Finset.card_erase_lt_of_mem hin
  omega

/-- The fuel a task needs: enough for the per-level work times the number
of domain agents not yet on the visiting stack. -/
def taskFuelBound (reg : List (String × List String)) (v : List String) :
    VisitTask → Nat
  | VisitTask.agent _ =>
    (2 * maxDepsLen reg + 2) * (regDomain reg \ v.toFinset).card + 2
  | VisitTask.deps ds =>
    (2 * maxDepsLen reg + 2) * (regDomain reg \ v.toFinset).card + 2 * ds.length + 1

/-- The search never exhausts its fuel when given at least the bound. -/
theorem visitFuel_isSome (reg : List (String × List String)) :
    ∀ (fuel : Nat) (v r : List String) (task : VisitTask),
      taskFuelBound reg v task ≤ fuel →
      (visitFuel reg fuel v r task).isSome = true := by
  intro fuel
  induction fuel with
  | zero =>
      intro v r task hb
      exfalso
      cases task <;> (simp only [taskFuelBound] at hb; omega)
  | succ n ih =>
      intro v r task hb
      cases task with
      | agent a =>
          rw [visitFuel]
          by_cases hv : v.contains a = true
          · rw [if_pos hv]; rfl
          · rw [if_neg hv]
            by_cases hr : r.contains a = true
            · rw [if_pos hr]; rfl
            · rw [if_neg hr]
              have hsub : taskFuelBound reg (a :: v) (VisitTask.deps (depsOf reg a)) ≤ n := by
                by_cases hne : depsOf reg a = []
                · rw [hne]
                  simp only [taskFuelBound] at hb ⊢
                  have hle := domCard_cons_le reg a v
                  have hbb : (2 * maxDepsLen reg + 2) *
                        (regDomain reg \ (a :: v).toFinset).card ≤
                      (2 * maxDepsLen reg + 2) * (regDomain reg \ v.toFinset).card :=
                    Nat.mul_le_mul_left _ hle
                  simp only [List.length_nil]
                  omega
                · have hmem := lookup_mem_of_deps_ne_nil reg a hne
                  have hnv : a ∉ v := fun hc => hv ((List.elem_iff).mpr hc)
                  have hlt := domCard_cons_lt reg a v hmem hnv
                  have hlen := depsOf_length_le reg a
                  simp only [taskFuelBound] at hb ⊢
                  have hmul : (2 * maxDepsLen reg + 2) *
                        ((regDomain reg \ (a :: v).toFinset).card + 1) ≤
                      (2 * maxDepsLen reg + 2) * (regDomain reg \ v.toFinset).card :=
                    Nat.mul_le_mul_left _ hlt
                  rw [Nat.mul_add, Nat.mul_one] at hmul
                  omega
              have hs := ih (a :: v) r (VisitTask.deps (depsOf reg a)) hsub
              obtain ⟨res, hres⟩ := Option.isSome_iff_exists.mp hs
              rw [hres]
              obtain ⟨b1, r1⟩ := res
              cases b1 <;> rfl
      | deps ds =>
          cases ds with
          | nil => rw [visitFuel]; rfl
          | cons d ds2 =>
              rw [visitFuel]
              simp only [taskFuelBound, List.length_cons] at hb
              have h1 : taskFuelBound reg v (VisitTask.agent d) ≤ n := by
                simp only [taskFuelBound]
                omega
              have hA := ih v r (VisitTask.agent d) h1
              obtain ⟨res, hres⟩ := Option.isSome_iff_exists.mp hA
              rw [hres]
              obtain ⟨b1, r1⟩ := res
              cases b1 with
              | false => rfl
              | true =>
                  have h2 : taskFuelBound reg v (VisitTask.deps ds2) ≤ n := by
                    simp only [taskFuelBound]
                    omega
                  exact ih v r1 (VisitTask.deps ds2) h2

/-- The configured fuel covers a visit from an empty stack. -/
theorem checkFuel_suffices (reg : List (String × List String)) (a : String) :
    taskFuelBound reg ([] : List String) (VisitTask.agent a) ≤ checkFuel reg := by
  simp only [taskFuelBound, checkFuel]
  have hcard : (regDomain reg \ (([] : List String)).toFinset).card ≤ reg.length := by
    have h1 : (regDomain reg \ (([] : List String)).toFinset).card ≤ (regDomain reg).card :=
      Finset.card_le_card (Finset.sdiff_subset)
    have h2 : (regDomain reg).card ≤ (reg.map Prod.fst).length := List.toFinset_card_le _
    rw [List.length_map] at h2
    exact le_trans h1 h2
  have := Nat.mul_le_mul_left (2 * maxDepsLen reg + 2) hcard
  omega

/-- The empty resolved list trivially has dependencies-before. -/
theorem depsBeforeList_nil (deps : String → List String) : DepsBeforeList deps [] := by
  intro l1 a l2 heq d _
  exfalso
  have hlen := congrArg List.length heq
  simp at hlen
  omega

/-- A fully valid outer loop run yields a duplicate-free, dependency-closed
resolved list containing everything reachable from the given names. -/
theorem checkGo_true_reach (reg : List (String × List String)) :
    ∀ (names resolved : List String),
      DepsBeforeList (depsOf reg) resolved → resolved.Nodup →
      checkDependenciesGo reg (checkFuel reg) resolved names = true →
      ∃ R : List String, DepsBeforeList (depsOf reg) R ∧ R.Nodup ∧
        (∀ y ∈ resolved, y ∈ R) ∧
        ∀ n ∈ names, ∀ x, Relation.ReflTransGen (DepEdge (depsOf reg)) n x → x ∈ R := by
  intro names
  induction names with
  | nil =>
      intro r hdb hnd _
      exact ⟨r, hdb, hnd, fun y hy => hy, fun n hn => by simp at hn⟩
  | cons n ns ih =>
      intro r hdb hnd h
      rw [checkDependenciesGo] at h
      cases hv : visitFuel reg (checkFuel reg) [] r (VisitTask.agent n) with
      | none => rw [hv] at h; cases h
      | some p =>
          obtain ⟨b1, r1⟩ := p
          rw [hv] at h
          cases b1 with
          | false => cases h
          | true =>
              have hdb1 : DepsBeforeList (depsOf reg) r1 :=
                (visitFuel_pack reg _ _ _ _ _ _ hv).2.2.1 hdb
              have hnd1 : r1.Nodup := (visitFuel_pack reg _ _ _ _ _ _ hv).2.1 hnd
              obtain ⟨ext1, hre1, _⟩ := (visitFuel_pack reg _ _ _ _ _ _ hv).1
              obtain ⟨R, hdbR, hndR, hsubR, hcovR⟩ := ih r1 hdb1 hnd1 h
              refine ⟨R, hdbR, hndR, ?_, ?_⟩
              · intro y hy
                exact hsubR y (by rw [hre1]; exact List.mem_append_left _ hy)
              · intro m hm x hmx
                rcases List.mem_cons.mp hm with hmn | hmm
                · subst hmn
                  have hx1 : x ∈ r1 := visitFuel_reach reg _ _ _ _ _ hdb hv m
                    (by simp [taskSources]) x hmx
                  exact hsubR x hx1
                · exact hcovR m hmm x hmx

/-- The empty visiting stack satisfies the stack chain condition. -/
theorem stackChain_nil (deps : String → List String) (s : String) :
    StackChain deps [] s := trivial

/-- An invalid outer loop run exhibits a cycle reachable from one of the
given names. -/
theorem checkGo_false_cycle (reg : List (String × List String)) :
    ∀ (names resolved : List String),
      checkDependenciesGo reg (checkFuel reg) resolved names = false →
      ∃ n ∈ names, ∃ x, Relation.ReflTransGen (DepEdge (depsOf reg)) n x ∧
        Relation.TransGen (DepEdge (depsOf reg)) x x := by
  intro names
  induction names with
  | nil => intro r h; cases h
  | cons n ns ih =>
      intro r h
      rw [checkDependenciesGo] at h
      cases hv : visitFuel reg (checkFuel reg) [] r (VisitTask.agent n) with
      | none =>
          exfalso
          have hs := visitFuel_isSome reg (checkFuel reg) [] r (VisitTask.agent n)
            (checkFuel_suffices reg n)
          rw [hv] at hs
          cases hs
      | some p =>
          obtain ⟨b1, r1⟩ := p
          rw [hv] at h
          cases b1 with
          | false =>
              obtain ⟨s, hsmem, x, hsx, hcyc⟩ :=
                visitFuel_false_cycle reg (checkFuel reg) [] r (VisitTask.agent n) r1
                  (fun s _ => stackChain_nil (depsOf reg) s) hv
              have hsn : s = n := by simpa [taskSources] using hsmem
              rw [hsn] at hsx
              exact ⟨n, List.mem_cons_self _ _, x, hsx, hcyc⟩
          | true =>
              obtain ⟨m, hmm, x, hmx, hcyc⟩ := ih r1 h
              exact ⟨m, List.mem_cons_of_mem n hmm, x, hmx, hcyc⟩

/-- In the built-in registry the only dependency edges go from the
orchestrator to developer, tester and ui. -/
theorem managerEdge_source (a d : String)
    (h : DepEdge (depsOf managerDepsReg) a d) :
    a = "orchestrator" ∧ (d = "developer" ∨ d = "tester" ∨ d = "ui") := by
  have hd : d ∈ depsOf managerDepsReg a := h
  by_cases h1 : a = "developer"
  · subst h1
    rw [show depsOf managerDepsReg "developer" = [] from rfl] at hd
    simp at hd
  by_cases h2 : a = "tester"
  · subst h2
    rw [show depsOf managerDepsReg "tester" = [] from rfl] at hd
    simp at hd
  by_cases h3 : a = "ui"
  · subst h3
    rw [show depsOf managerDepsReg "ui" = [] from rfl] at hd
    simp at hd
  by_cases h4 : a = "orchestrator"
  · subst h4
    refine ⟨rfl, ?_⟩
    rw [show depsOf managerDepsReg "orchestrator" =
      ["developer", "tester", "ui"] from rfl] at hd
    simpa using hd
  · exfalso
    have hnone : managerDepsReg.lookup a = none := by
      rw [show managerDepsReg =
        [("developer", ([] : List String)), ("tester", []), ("ui", []),
         ("orchestrator", ["developer", "tester", "ui"])] from rfl]
      simp [List.lookup_cons, beq_eq_false_iff_ne.mpr h1, beq_eq_false_iff_ne.mpr h2,
        beq_eq_false_iff_ne.mpr h3, beq_eq_false_iff_ne.mpr h4]
    unfold depsOf at hd
    rw [hnone] at hd
    simp at hd

/-- Claim C5: checkDependencies returns valid false exactly when the
dependency relation reachable from the given agent names contains a cycle,
and on the built-in four-agent registry (developer, tester, ui with no
dependencies, orchestrator depending on the other three) it returns valid
true for every list of agent names. -/
theorem checkDependencies_cycle_iff :
    (∀ (reg : List (String × List String)) (names : List String),
      checkDependenciesValid reg names = false ↔
        ∃ x, (∃ n ∈ names, Relation.ReflTransGen (DepEdge (depsOf reg)) n x) ∧
          Relation.TransGen (DepEdge (depsOf reg)) x x) ∧
    (∀ names : List String, checkDependenciesValid managerDepsReg names = true) := by
  have hiff : ∀ (reg : List (String × List String)) (names : List String),
      checkDependenciesValid reg names = false ↔
        ∃ x, (∃ n ∈ names, Relation.ReflTransGen (DepEdge (depsOf reg)) n x) ∧
          Relation.TransGen (DepEdge (depsOf reg)) x x := by
    intro reg names
    constructor
    · intro h
      obtain ⟨n, hn, x, hnx, hcyc⟩ := checkGo_false_cycle reg names [] h
      exact ⟨x, ⟨n, hn, hnx⟩, hcyc⟩
    · rintro ⟨x, ⟨n, hn, hnx⟩, hcyc⟩
      cases hb : checkDependenciesValid reg names with
      | false => rfl
      | true =>
          exfalso
          obtain ⟨R, hdbR, hndR, _, hcovR⟩ := checkGo_true_reach reg names []
            (depsBeforeList_nil _) List.nodup_nil hb
          exact no_cycle_of_depsBeforeList (depsOf reg) R hdbR hndR x
            (hcovR n hn x hnx) hcyc
  refine ⟨hiff, ?_⟩
  intro names
  cases hb : checkDependenciesValid managerDepsReg names with
  | true => rfl
  | false =>
      exfalso
      obtain ⟨x, _, hcyc⟩ := (hiff managerDepsReg names).mp hb
      obtain ⟨y, hxy, hyx⟩ := Relation.TransGen.head'_iff.mp hcyc
      have hx := managerEdge_source x y hxy
      rcases Relation.ReflTransGen.cases_head hyx with hyxeq | ⟨z, hyz, _⟩
      · have heq : y = x := hyxeq
        rw [hx.1] at heq
        rcases hx.2 with h | h | h <;> rw [h] at heq <;> exact absurd heq (by decide)
      · have hy := (managerEdge_source y z hyz).1
        rcases hx.2 with h | h | h <;> rw [h] at hy <;> exact absurd hy (by decide)

/-- Witness for claim C5: the built-in registry part applied to the full
agent list. -/
theorem checkDependencies_cycle_iff_witness :
    checkDependenciesValid managerDepsReg
      ["developer", "tester", "ui", "orchestrator"] = true :=
  checkDependencies_cycle_iff.2 ["developer", "tester", "ui", "orchestrator"]

/- ================================================== -/
/- Claim C2: adaptive execution                        -/
/- ================================================== -/

/-- A filter and its complement together permute the list. -/
theorem filter_not_filter_perm {α : Type _} (p : α → Bool) (l : List α) :
    List.Perm (l.filter p ++ l.filter (fun a => !(p a))) l := by
  induction l with
  | nil => simp
  | cons a t ih =>
      cases hp : p a with
      | true =>
          simp only [List.filter_cons, hp, Bool.not_true, if_true, if_false]
          simpa using ih.cons a
      | false =>
          simp only [List.filter_cons, hp, Bool.not_false, if_true, if_false]
          exact List.Perm.trans List.perm_middle (ih.cons a)

/-- The parallel and sequential batches together permute the ready set. -/
theorem categorize_perm (ru : String → String) (canPar : Bool) (ready : List String) :
    List.Perm (categorizeParallel ru canPar ready ++
      categorizeSequentialAgents ru canPar ready) ready := by
  cases canPar with
  | false => simp [categorizeParallel, categorizeSequentialAgents]
  | true =>
      unfold categorizeParallel categorizeSequentialAgents
      rw [if_pos rfl, if_pos rfl]
      have hcong : ready.filter (fun a => ru a == "high") =
          ready.filter (fun a => !(ru a != "high")) := by
        apply List.filter_congr
        intro x _
        simp [bne]
      rw [hcong]
      exact filter_not_filter_perm (fun a => ru a != "high") ready

/-- The adaptive loop, on a duplicate-free agent set whose dependencies
stay inside the completed and remaining agents and admit a decreasing rank,
never hits the deadlock error, records every remaining agent exactly once,
and only records an agent after all its dependencies. -/
theorem executeAdaptiveGo_spec (deps : String → List String) (ru : String → String)
    (canPar : Nat → Bool) (behave : String → AgentResult) (rank : String → Nat) :
    ∀ (bound k : Nat) (remaining completed : List String)
      (acc : List (String × AgentResult)),
      remaining.length ≤ bound →
      remaining.Nodup →
      (∀ a ∈ remaining, ∀ d ∈ deps a, d ∈ completed ∨ d ∈ remaining) →
      (∀ a ∈ remaining, ∀ d ∈ deps a, d ∈ remaining → rank d < rank a) →
      completed = acc.map Prod.fst →
      DepsBeforeList deps (acc.map Prod.fst) →
      ∃ ext, executeAdaptiveGo deps ru canPar behave k remaining completed acc =
          Except.ok (acc ++ ext) ∧
        List.Perm (ext.map Prod.fst) remaining ∧
        DepsBeforeList deps ((acc ++ ext).map Prod.fst) := by
  intro bound
  induction bound with
  | zero =>
      intro k remaining completed acc hlen _ _ _ _ hdb
      have hrem : remaining = [] := List.length_eq_zero.mp (Nat.le_zero.mp hlen)
      subst hrem
      refine ⟨[], ?_, by simp, by simpa using hdb⟩
      rw [executeAdaptiveGo]
      simp
  | succ m ih =>
      intro k remaining completed acc hlen hnd hclosed hrank hcomp hdb
      by_cases hrem : remaining = []
      · subst hrem
        refine ⟨[], ?_, by simp, by simpa using hdb⟩
        rw [executeAdaptiveGo]
        simp
      · have hready_ne : readyAgents deps remaining completed ≠ [] := by
          have hne : remaining.toFinset.Nonempty := by
            cases hr2 : remaining with
            | nil => exact absurd hr2 hrem
            | cons a t => exact ⟨a, by simp [hr2]⟩
          obtain ⟨a0, ha0mem, ha0min⟩ := Finset.exists_min_image remaining.toFinset rank hne
          rw [List.mem_toFinset] at ha0mem
          have hready : a0 ∈ readyAgents deps remaining completed := by
            rw [readyAgents, List.mem_filter]
            refine ⟨ha0mem, ?_⟩
            rw [List.all_eq_true]
            intro d hd
            rcases hclosed a0 ha0mem d hd with hc | hc
            · exact (List.elem_iff).mpr hc
            · exfalso
              have h1 := hrank a0 ha0mem d hd hc
              have h2 := ha0min d (List.mem_toFinset.mpr hc)
              omega
          intro hempty
          rw [hempty] at hready
          simp at hready
        rw [executeAdaptiveGo, dif_neg hrem, dif_neg hready_ne]
        have hbp := categorize_perm ru (canPar k) (readyAgents deps remaining completed)
        have hready_sub : ∀ x ∈ readyAgents deps remaining completed, x ∈ remaining :=
          fun x hx => List.mem_of_mem_filter hx
        have hready_deps : ∀ x ∈ readyAgents deps remaining completed,
            ∀ d ∈ deps x, d ∈ completed := by
          intro x hx d hd
          have hx2 := (List.mem_filter.mp hx).2
          rw [List.all_eq_true] at hx2
          exact (List.elem_iff).mp (hx2 d hd)
        have hsplit : ∀ x ∈ remaining, x ∈ readyAgents deps remaining completed ∨
            x ∈ remaining.filter
              (fun a => !((readyAgents deps remaining completed).contains a)) := by
          intro x hx
          by_cases hxr : x ∈ readyAgents deps remaining completed
          · exact Or.inl hxr
          · refine Or.inr (List.mem_filter.mpr ⟨hx, ?_⟩)
            cases hc : (readyAgents deps remaining completed).contains x with
            | false => rfl
            | true => exact absurd ((List.elem_iff).mp hc) hxr
        have hmapfst : ∀ l : List String,
            (l.map (recordAgent behave)).map Prod.fst = l := by
          intro l
          rw [List.map_map]
          rw [show (Prod.fst ∘ recordAgent behave) = id from rfl, List.map_id]
        have hbatch_mem : ∀ x,
            x ∈ (categorizeParallel ru (canPar k) (readyAgents deps remaining completed) ++
              categorizeSequentialAgents ru (canPar k)
                (readyAgents deps remaining completed)) ↔
            x ∈ readyAgents deps remaining completed := fun x => hbp.mem_iff
        have hlen2 : (remaining.filter
            (fun a => !((readyAgents deps remaining completed).contains a))).length ≤ m := by
          obtain ⟨y, hy⟩ := List.exists_mem_of_ne_nil _ hready_ne
          have hcy : (readyAgents deps remaining completed).contains y = true :=
            (List.elem_iff).mpr hy
          have hlt : (remaining.filter
              (fun a => !((readyAgents deps remaining completed).contains a))).length <
              remaining.length :=
            length_filter_lt_of_mem_not (hready_sub y hy) (by simpa using hy)
          omega
        have hnd2 := hnd.filter
          (fun a => !((readyAgents deps remaining completed).contains a))
        have hclosed2 : ∀ a ∈ remaining.filter
              (fun a => !((readyAgents deps remaining completed).contains a)),
            ∀ d ∈ deps a,
              d ∈ completed ++
                (categorizeParallel ru (canPar k) (readyAgents deps remaining completed) ++
                 categorizeSequentialAgents ru (canPar k)
                   (readyAgents deps remaining completed)) ∨
              d ∈ remaining.filter
                (fun a => !((readyAgents deps remaining completed).contains a)) := by
          intro a ha d hd
          have ha2 := List.mem_of_mem_filter ha
          rcases hclosed a ha2 d hd with hc | hc
          · exact Or.inl (List.mem_append_left _ hc)
          · rcases hsplit d hc with hc2 | hc2
            · exact Or.inl (List.mem_append_right _ ((hbatch_mem d).mpr hc2))
            · exact Or.inr hc2
        have hrank2 : ∀ a ∈ remaining.filter
              (fun a => !((readyAgents deps remaining completed).contains a)),
            ∀ d ∈ deps a, d ∈ remaining.filter
              (fun a => !((readyAgents deps remaining completed).contains a)) →
              rank d < rank a := by
          intro a ha d hd hdm
          exact hrank a (List.mem_of_mem_filter ha) d hd (List.mem_of_mem_filter hdm)
        have hcomp2 : completed ++
            (categorizeParallel ru (canPar k) (readyAgents deps remaining completed) ++
             categorizeSequentialAgents ru (canPar k)
               (readyAgents deps remaining completed)) =
            (acc ++ ((categorizeParallel ru (canPar k)
                (readyAgents deps remaining completed) ++
              categorizeSequentialAgents ru (canPar k)
                (readyAgents deps remaining completed)).map
                  (recordAgent behave))).map Prod.fst := by
          rw [List.map_append, hmapfst, hcomp]
        have hdb2 : DepsBeforeList deps
            ((acc ++ ((categorizeParallel ru (canPar k)
                (readyAgents deps remaining completed) ++
              categorizeSequentialAgents ru (canPar k)
                (readyAgents deps remaining completed)).map
                  (recordAgent behave))).map Prod.fst) := by
          rw [List.map_append, hmapfst]
          apply depsBeforeList_append deps _ _ hdb
          intro a ha d hd
          rw [← hcomp]
          exact hready_deps a ((hbatch_mem a).mp ha) d hd
        obtain ⟨ext2, hgo, hperm2, hdb3⟩ := ih (k + 1)
          (remaining.filter
            (fun a => !((readyAgents deps remaining completed).contains a)))
          (completed ++
            (categorizeParallel ru (canPar k) (readyAgents deps remaining completed) ++
             categorizeSequentialAgents ru (canPar k)
               (readyAgents deps remaining completed)))
          (acc ++ ((categorizeParallel ru (canPar k)
              (readyAgents deps remaining completed) ++
            categorizeSequentialAgents ru (canPar k)
              (readyAgents deps remaining completed)).map (recordAgent behave)))
          hlen2 hnd2 hclosed2 hrank2 hcomp2 hdb2
        refine ⟨(categorizeParallel ru (canPar k) (readyAgents deps remaining completed) ++
            categorizeSequentialAgents ru (canPar k)
              (readyAgents deps remaining completed)).map (recordAgent behave) ++ ext2,
          ?_, ?_, ?_⟩
        · rw [hgo, List.append_assoc]
        · rw [List.map_append, hmapfst]
          have hfc : remaining.filter
              (fun a => !((readyAgents deps remaining completed).contains a)) =
              remaining.filter
                (fun a => !((deps a).all (fun d => completed.contains d))) := by
            apply List.filter_congr
            intro x hx
            congr 1
            cases hq : (deps x).all (fun d => completed.contains d) with
            | true =>
                have hxready : x ∈ readyAgents deps remaining completed := by
                  rw [readyAgents, List.mem_filter]
                  exact ⟨hx, hq⟩
                simpa [List.elem_iff] using hxready
            | false =>
                cases hc : (readyAgents deps remaining completed).contains x with
                | false => rfl
                | true =>
                    exfalso
                    have hxready := (List.elem_iff).mp hc
                    rw [readyAgents, List.mem_filter] at hxready
                    rw [hxready.2] at hq
                    cases hq
          have hperm3 : List.Perm
              (readyAgents deps remaining completed ++
                remaining.filter
                  (fun a => !((readyAgents deps remaining completed).contains a)))
              remaining := by
            rw [hfc]
            exact filter_not_filter_perm
              (fun a => (deps a).all (fun d => completed.contains d)) remaining
          exact ((hbp.append hperm2).trans hperm3)
        · rw [← List.append_assoc]
          exact hdb3

/-- Claim C2: for agents with duplicate-free names whose dependency lists
stay inside the agent list and are acyclic (witnessed by a rank strictly
decreasing along dependencies), executeAdaptive returns a results object
(no deadlock error is thrown, and the loop terminates since every round
removes the nonempty ready set), records every listed agent exactly once,
and records an agent only after every one of its dependencies. -/
theorem executeAdaptive_spec (deps : String → List String) (ru : String → String)
    (canPar : Nat → Bool) (behave : String → AgentResult) (agents : List String)
    (rank : String → Nat)
    (hnd : agents.Nodup)
    (hclosed : ∀ a ∈ agents, ∀ d ∈ deps a, d ∈ agents)
    (hrank : ∀ a ∈ agents, ∀ d ∈ deps a, rank d < rank a) :
    ∃ res, executeAdaptive deps ru canPar behave agents = Except.ok res ∧
      List.Perm (res.map Prod.fst) agents ∧
      DepsBeforeList deps (res.map Prod.fst) := by
  obtain ⟨ext, hgo, hperm, hdb⟩ := executeAdaptiveGo_spec deps ru canPar behave rank
    agents.length 0 agents [] [] (le_refl _) hnd
    (fun a ha d hd => Or.inr (hclosed a ha d hd))
    (fun a ha d hd _ => hrank a ha d hd)
    rfl (depsBeforeList_nil deps)
  refine ⟨ext, ?_, hperm, ?_⟩
  · simpa [executeAdaptive] using hgo
  · simpa using hdb

/-- Witness for claim C2: the comprehensive workflow's four agents under
the built-in registry, with the orchestrator ranked above its three
dependencies. -/
theorem executeAdaptive_spec_witness :
    ∃ res, executeAdaptive managerDeps managerResourceUsage (fun _ => true)
        (fun _ => AgentResult.success 0)
        ["developer", "tester", "ui", "orchestrator"] = Except.ok res ∧
      List.Perm (res.map Prod.fst) ["developer", "tester", "ui", "orchestrator"] ∧
      DepsBeforeList managerDeps (res.map Prod.fst) :=
  executeAdaptive_spec managerDeps managerResourceUsage (fun _ => true)
    (fun _ => AgentResult.success 0) ["developer", "tester", "ui", "orchestrator"]
    (fun a => if a == "orchestrator" then 1 else 0)
    (by decide) (by decide) (by decide)
